import Mathlib

/-!
# Verification of the ninja build-log core against its specification

This file gives a shallow embedding, in Lean 4, of the C++ sources of the
repository (src/build_log.cc, src/deplist_helper.cc, and the graph/plan
layer exercised by ninja_test.cc), and proves or refutes the specified
properties about them.

Modelling conventions:
* C strings and file contents are `List Char`; machine integers are `Int`
  (the log entries' `int`/`TimeStamp` fields) or `Nat`; overflow does not
  occur on the values the theorems range over.
* The stdio buffering of `BuildLog::Load` (a 256 KiB read buffer with
  carry-over, `build_log.cc:165-194`) is modelled as exact access to the
  whole file contents: the buffered loop enumerates exactly the
  `'\n'`-separated lines of the file, the final segment without a
  terminating newline being handed to the parser with `line_end == NULL`.
* `strchr(start, sep)` inside the record parser is modelled as a search
  within the current line.  The C buffer is not NUL-terminated per line, so
  on a malformed line the real `strchr` may run past the terminating
  newline; every theorem below only evaluates lines whose separators occur
  before the newline, where the two coincide.
* The filesystem is an association list from path to contents; `fopen`
  with modes "wb"/"ab" is modelled as always succeeding (hard I/O errors
  are out of scope of the claims treated here).
-/

set_option autoImplicit false

namespace Ninja

/-- C strings / byte strings are lists of characters. -/
abbrev CStr := List Char

/-! ## Character classes (C `isdigit` / `isspace`, "C" locale) -/

/-- `isdigit` for the byte set `'0'..'9'`. -/
def isDigitC (c : Char) : Bool := 48 ≤ c.toNat && c.toNat ≤ 57

/-- `isspace` in the "C" locale: space (32) and the code points 9-13
(`\t`, `\n`, `\v`, `\f`, `\r`). -/
def isSpaceC (c : Char) : Bool :=
  c.toNat = 32 || (9 ≤ c.toNat && c.toNat ≤ 13)

/-! ## Decimal rendering: model of `fprintf "%d"` / `"%ld"` -/

/-- Decimal digits, most significant first; structural recursion on a
fuel bound so that concrete values compute by `decide`. -/
def natDigitsAux : Nat → Nat → List Char
  | 0, _ => []
  | fuel + 1, n =>
    if n < 10 then [Char.ofNat (48 + n)]
    else natDigitsAux fuel (n / 10) ++ [Char.ofNat (48 + n % 10)]

/-- Decimal digits of `n`, most significant first (model of `%d` on a
nonnegative value). -/
def natDigits (n : Nat) : List Char := natDigitsAux (n + 1) n

/-- Decimal rendering of a signed integer, as `printf "%d"` emits it. -/
def intChars (i : Int) : List Char :=
  if i < 0 then '-' :: natDigits i.natAbs else natDigits i.natAbs

/-! ## Decimal parsing: model of `atoi` / `atol` (`build_log.cc:214,221,228`) -/

/-- Accumulate leading decimal digits, stopping at the first non-digit
(the tail behaviour of `atoi`). -/
def digitsVal : List Char → Nat → Nat
  | [], acc => acc
  | c :: cs, acc =>
    if isDigitC c then digitsVal cs (acc * 10 + (c.toNat - 48)) else acc

/-- `atoi`/`atol`: skip leading whitespace, optional sign, then leading
digits; no digits parse as `0` (an empty rest also does: `headD ' '` is
not a sign and `digitsVal [] 0 = 0`). -/
def atoiM (s : List Char) : Int :=
  let s1 := s.dropWhile isSpaceC
  if s1.headD ' ' = '-' then -(digitsVal s1.tail 0 : Int)
  else if s1.headD ' ' = '+' then (digitsVal s1.tail 0 : Int)
  else (digitsVal s1 0 : Int)

/-! ## Line and field splitting -/

/-- Split at the first occurrence of `sep`: the model of
`end = strchr(start, sep); *end = 0` yielding the field before `sep` and
the rest after it.  `none` when `sep` does not occur. -/
def splitAtChar (sep : Char) : List Char → Option (List Char × List Char)
  | [] => none
  | c :: cs =>
    if c = sep then some ([], cs)
    else (splitAtChar sep cs).map (fun p => (c :: p.1, p.2))

theorem splitAtChar_length {sep : Char} {l pre post : List Char}
    (h : splitAtChar sep l = some (pre, post)) : post.length < l.length := by
  induction l generalizing pre post with
  | nil => simp [splitAtChar] at h
  | cons c cs ih =>
    simp only [splitAtChar] at h
    by_cases hc : c = sep
    · rw [if_pos hc] at h
      injection h with h
      injection h with h1 h2
      subst h2
      exact Nat.lt_succ_self _
    · rw [if_neg hc] at h
      cases hsp : splitAtChar sep cs with
      | none => rw [hsp] at h; simp at h
      | some p =>
        rw [hsp] at h
        obtain ⟨a, b⟩ := p
        simp at h
        obtain ⟨h1, h2⟩ := h
        subst h2
        have hb := ih hsp
        simp only [List.length_cons]
        omega

/-- Worker for `toLines`, structurally recursive on a fuel bound (the
fuel never runs out when it starts at `l.length + 1`, since each found
newline strictly shrinks the rest). -/
def toLinesAux : Nat → List Char → List (List Char × Bool)
  | 0, _ => []
  | _ + 1, [] => []
  | fuel + 1, l =>
    match splitAtChar '\n' l with
    | some (line, rest) => (line, true) :: toLinesAux fuel rest
    | none => [(l, false)]

/-- The lines of the file as `BuildLog::Load`'s buffered loop produces
them: each `'\n'`-terminated segment is a line paired with `true`
(`line_end` found); a final segment without `'\n'` is paired with `false`
(`line_end == NULL`, the truncated-trailing-line case). -/
def toLines (l : List Char) : List (List Char × Bool) :=
  toLinesAux (l.length + 1) l

/-! ## The build-log data model (`build_log.h` / `build_log.cc`) -/

/-- `BuildLog::LogEntry`: one in-memory record per output path. -/
structure LogEntry where
  output : CStr
  start_time : Int
  end_time : Int
  restat_mtime : Int
  command : CStr
deriving DecidableEq, Repr

/-- Lookup in the in-memory map `log_` (keyed by the output path). -/
def logFind : List LogEntry → CStr → Option LogEntry
  | [], _ => none
  | e :: es, p => if e.output = p then some e else logFind es p

/-- Insert-or-overwrite in `log_`: if an entry with the same output exists
its fields are overwritten in place, otherwise a new entry is added.  The
hash map's iteration order is abstracted as insertion order. -/
def logUpdate : List LogEntry → LogEntry → List LogEntry
  | [], e => [e]
  | x :: xs, e => if x.output = e.output then e :: xs else x :: logUpdate xs e

/-! ## Serialisation (`BuildLog::WriteEntry`, `build_log.cc:283-287`) -/

/-- The file signature line `"# ninja log v%d\n"` printed with version `v`
(`kFileSignature`, `build_log.cc:80`). -/
def signatureLine (v : Int) : CStr :=
  "# ninja log v".toList ++ intChars v ++ ['\n']

/-- `kCurrentVersion = 4` (`build_log.cc:81`). -/
def kCurrentVersion : Int := 4

/-- The record line of `WriteEntry`, without the trailing newline:
`"%d\t%d\t%ld\t%s\t%s"` over start, end, restat_mtime, output, command. -/
def writeEntryLine (e : LogEntry) : CStr :=
  intChars e.start_time ++ '\t' :: (intChars e.end_time ++ '\t' ::
    (intChars e.restat_mtime ++ '\t' :: (e.output ++ '\t' :: e.command)))

/-- The full record as `WriteEntry` appends it, newline included. -/
def writeEntry (e : LogEntry) : CStr := writeEntryLine e ++ ['\n']

/-! ## Parsing (`BuildLog::Load`, `build_log.cc:151-274`) -/

/-- One `sscanf` whitespace directive: skip any (possibly empty) run of
whitespace. -/
def dropWs (l : List Char) : List Char := l.dropWhile isSpaceC

/-- Match one ordinary (non-whitespace) format character exactly. -/
def matchC (c : Char) : List Char → Option (List Char)
  | [] => none
  | x :: xs => if x = c then some xs else none

/-- Match a literal word character by character. -/
def matchLit : List Char → List Char → Option (List Char)
  | [], l => some l
  | c :: cs, l => (matchC c l).bind (matchLit cs)

/-- Leading digit run with its value; `none` when the first character is
not a digit (a `%d` conversion needs at least one digit). -/
def scanDigits : List Char → Option (Nat × List Char)
  | [] => none
  | c :: cs =>
    if isDigitC c then some (scanDigitsAux cs (c.toNat - 48)) else none
where
  scanDigitsAux : List Char → Nat → Nat × List Char
    | [], acc => (acc, [])
    | c :: cs, acc =>
      if isDigitC c then scanDigitsAux cs (acc * 10 + (c.toNat - 48))
      else (acc, c :: cs)

/-- The `%d` conversion of `sscanf`: skip whitespace, optional sign, then
at least one digit (`scanDigits [] = none` covers the empty rest). -/
def scanIntTok (l : List Char) : Option (Int × List Char) :=
  let s1 := dropWs l
  if s1.headD ' ' = '-' then
    (scanDigits s1.tail).map (fun p => (-(p.1 : Int), p.2))
  else if s1.headD ' ' = '+' then
    (scanDigits s1.tail).map (fun p => ((p.1 : Int), p.2))
  else (scanDigits s1).map (fun p => ((p.1 : Int), p.2))

/-- `sscanf(line, "# ninja log v%d", &version)` returning the assigned
version when the conversion succeeded (`build_log.cc:199`).  The format's
spaces are whitespace directives, its letters ordinary characters; the
trailing `\n` directive cannot fail. -/
def parseSig (l : List Char) : Option Int := do
  let r ← matchC '#' l
  let r ← matchLit "ninja".toList (dropWs r)
  let r ← matchLit "log".toList (dropWs r)
  let r ← matchC 'v' (dropWs r)
  let (v, _) ← scanIntTok r
  pure v

/-- The field parser of one record line (`build_log.cc:205-256`): three
`sep`-terminated numeric fields, a `sep`-terminated output path, and the
remainder of the line as the command.  `none` models the `continue`
taken when a separator is missing. -/
def parseLine (sep : Char) (l : CStr) :
    Option (Int × Int × Int × CStr × CStr) :=
  match splitAtChar sep l with
  | none => none
  | some (f1, r1) =>
    match splitAtChar sep r1 with
    | none => none
    | some (f2, r2) =>
      match splitAtChar sep r2 with
      | none => none
      | some (f3, r3) =>
        match splitAtChar sep r3 with
        | none => none
        | some (out, cmd) => some (atoiM f1, atoiM f2, atoiM f3, out, cmd)

/-- The running state of one `Load` call: `log_version`, the map under
construction, and the two counters. -/
structure LoadState where
  version : Int
  log : List LogEntry
  unique : Nat
  total : Nat
deriving DecidableEq, Repr

/-- Process one line as a record (`build_log.cc:203-256`).  The insert is
skipped when the line had no terminating newline (`end = line_end;
if (!end) continue;`). -/
def loadRecord (st : LoadState) (line : CStr) (hasNl : Bool) : LoadState :=
  let sep := if st.version ≥ 4 then '\t' else ' '
  match parseLine sep line with
  | none => st
  | some (stt, ent, rst, out, cmd) =>
    if hasNl then
      let e : LogEntry := ⟨out, stt, ent, rst, cmd⟩
      match logFind st.log out with
      | some _ => { st with log := logUpdate st.log e, total := st.total + 1 }
      | none => { st with log := st.log ++ [e], unique := st.unique + 1,
                          total := st.total + 1 }
    else st

/-- Process one line (`build_log.cc:196-256`): while `log_version` is
still `0` the signature is tried first (a successful parse consumes the
line), else the version defaults to `1` and the same line is parsed as a
record.  The C code rescans from `buf`; on the first processed line
`line_start == buf`, and `log_version` can only remain `0` afterwards if a
signature announced version `0`, which no theorem below exercises. -/
def loadLine (st : LoadState) (line : CStr) (hasNl : Bool) : LoadState :=
  if st.version = 0 then
    match parseSig line with
    | some v => { st with version := v }
    | none => loadRecord { st with version := 1 } line hasNl
  else loadRecord st line hasNl

/-- The whole parsing loop of `Load` over the file contents, from the
initial in-memory map `log0` (the `log_` member of the `BuildLog` the
load is called on; counters start at zero each call). -/
def loadContent (log0 : List LogEntry) (content : CStr) : LoadState :=
  (toLines content).foldl (fun s p => loadLine s p.1 p.2) ⟨0, log0, 0, 0⟩

/-- The recompaction decision after the loop (`build_log.cc:259-269`):
`kMinCompactionEntryCount = 100`, `kCompactionRatio = 3`. -/
def loadSetsRecompaction (st : LoadState) : Bool :=
  if st.version < kCurrentVersion then true
  else if st.total > 100 && st.total > st.unique * 3 then true
  else false

/-! ## Filesystem model

An association list from path to file contents.  `fsWrite` is
create-or-truncate (`fopen "wb"`), `fsAppend` is `fopen "ab"` plus a
write, `fsRemove` is `unlink`, `fsRename` is `rename`. -/

abbrev FileSys := List (CStr × CStr)

def fsLookup : FileSys → CStr → Option CStr
  | [], _ => none
  | (q, c) :: fs, p => if q = p then some c else fsLookup fs p

/-- Create or overwrite the file at `p` with contents `c`. -/
def fsWrite : FileSys → CStr → CStr → FileSys
  | [], p, c => [(p, c)]
  | (q, d) :: fs, p, c =>
    if q = p then (p, c) :: fs else (q, d) :: fsWrite fs p c

/-- Append to the file at `p`, creating it when absent (append mode). -/
def fsAppend (fs : FileSys) (p : CStr) (extra : CStr) : FileSys :=
  match fsLookup fs p with
  | some c => fsWrite fs p (c ++ extra)
  | none => fsWrite fs p extra

/-- `unlink p`. -/
def fsRemove : FileSys → CStr → FileSys
  | [], _ => []
  | (q, d) :: fs, p => if q = p then fsRemove fs p else (q, d) :: fsRemove fs p

/-- `rename src dst`; a no-op when `src` is absent (that error path is
never reached below: the source was just written). -/
def fsRename (fs : FileSys) (src dst : CStr) : FileSys :=
  match fsLookup fs src with
  | some c => fsWrite (fsRemove fs src) dst c
  | none => fs

/-! ## The `BuildLog` object (`build_log.h` / `build_log.cc`) -/

/-- The mutable state of a `BuildLog`: the in-memory map `log_`, the
opened-for-append file `log_file_` (`none` = `NULL`, `some p` = a handle
appending to path `p`), the `config_` pointer reduced to its one consulted
field (`none` = `NULL`, `some d` = a config with `dry_run = d`), and
`needs_recompaction_`. -/
structure BuildLogS where
  log : List LogEntry := []
  openPath : Option CStr := none
  config : Option Bool := none
  needsRecompaction : Bool := false
deriving DecidableEq, Repr

/-- A freshly constructed `BuildLog` (`build_log.cc:85-86`). -/
def freshBuildLog : BuildLogS := {}

/-- `BuildLog::Close` (`build_log.cc:145-149`). -/
def closeBL (bl : BuildLogS) : BuildLogS := { bl with openPath := none }

/-- `BuildLog::Load` (`build_log.cc:151-274`).  A missing file is a
success that changes nothing (`ENOENT`); otherwise the file is parsed into
`log_` starting from its current contents, and `needs_recompaction_` is
set according to the version and the entry counters. -/
def loadBL (bl : BuildLogS) (fs : FileSys) (path : CStr) : BuildLogS :=
  match fsLookup fs path with
  | none => bl
  | some content =>
    let st := loadContent bl.log content
    { bl with log := st.log,
              needsRecompaction :=
                bl.needsRecompaction || loadSetsRecompaction st }

/-- The contents `Recompact` writes to the sibling file: a fresh
current-version signature plus one `WriteEntry` line per in-memory entry,
in map iteration order (`build_log.cc:299-307`). -/
def recompactContent (log : List LogEntry) : CStr :=
  signatureLine kCurrentVersion ++ (log.map writeEntry).flatten

/-- The suffix of the temporary file (`build_log.cc:292`). -/
def recompactTemp (path : CStr) : CStr := path ++ ".recompact".toList

/-- `BuildLog::Recompact` (`build_log.cc:289-321`): write signature and
entries to `path + ".recompact"`, `fclose`, then `unlink(path)` — whose
failure (file absent) aborts with an error — then
`rename(temp_path, path)`. -/
def recompact (log : List LogEntry) (fs : FileSys) (path : CStr) :
    Option FileSys :=
  let temp := recompactTemp path
  let fs3 := fsWrite fs temp (recompactContent log)
  if (fsLookup fs3 path).isSome then
    some (fsRename (fsRemove fs3 path) temp path)
  else none

/-- The successive filesystem states `Recompact` produces, in program
order (`build_log.cc:293-318`): initial, after `fopen(temp, "wb")`, after
the signature `fprintf`, after the `WriteEntry` loop, after
`unlink(path)`, after `rename(temp_path, path)`. -/
def recompactStates (log : List LogEntry) (fs : FileSys) (path : CStr) :
    List FileSys :=
  let temp := recompactTemp path
  let fs1 := fsWrite fs temp []
  let fs2 := fsWrite fs1 temp (signatureLine kCurrentVersion)
  let fs3 := fsWrite fs2 temp (recompactContent log)
  let fs4 := fsRemove fs3 path
  let fs5 := fsRename fs4 temp path
  [fs, fs1, fs2, fs3, fs4, fs5]

/-- `BuildLog::OpenForWrite` (`build_log.cc:92-118`).  With a dry-run
config it succeeds touching nothing; otherwise it recompacts first when
flagged, then opens `path` for append (creating it) and writes the
signature when the file is empty.  `none` models the `false` return (here:
only the recompaction failure path). -/
def openForWrite (bl : BuildLogS) (fs : FileSys) (path : CStr) :
    Option (BuildLogS × FileSys) :=
  if bl.config.getD false then some (bl, fs)
  else
    let step :=
      if bl.needsRecompaction then
        match recompact bl.log fs path with
        | some fs' => some ({ closeBL bl with needsRecompaction := true }, fs')
        | none => none
      else some (bl, fs)
    match step with
    | none => none
    | some (bl1, fs1) =>
      let existing := (fsLookup fs1 path).getD []
      let fs2 := fsAppend fs1 path []
      let fs3 := if existing = [] then
          fsAppend fs2 path (signatureLine kCurrentVersion)
        else fs2
      some ({ bl1 with openPath := some path }, fs3)

/-- `BuildLog::RecordCommand` (`build_log.cc:120-143`) for one output
path: insert-or-overwrite the in-memory entry, and append the record to
the open log file if there is one. -/
def recordOne (s : BuildLogS × FileSys) (out cmd : CStr)
    (stt ent rst : Int) : BuildLogS × FileSys :=
  let e : LogEntry := ⟨out, stt, ent, rst, cmd⟩
  let bl' := { s.1 with log := logUpdate s.1.log e }
  match s.1.openPath with
  | some p => (bl', fsAppend s.2 p (writeEntry e))
  | none => (bl', s.2)

/-- `BuildLog::RecordCommand` over all outputs of the edge.  The edge's
evaluated command (`edge->EvaluateCommand(true)`) and its output paths
(`edge->outputs_`) are received as values: the graph code computing them
is outside this translation unit. -/
def recordCommand (bl : BuildLogS) (fs : FileSys) (outputs : List CStr)
    (cmd : CStr) (stt ent rst : Int) : BuildLogS × FileSys :=
  outputs.foldl (fun s out => recordOne s out cmd stt ent rst) (bl, fs)

/-- One `RecordCommand` invocation, as data: the edge's output paths, its
evaluated command, and the three time fields. -/
structure RecOp where
  outputs : List CStr
  command : CStr
  startT : Int
  endT : Int
  restatT : Int
deriving DecidableEq, Repr

/-- A run of `RecordCommand` invocations. -/
def runRecords (s : BuildLogS × FileSys) (ops : List RecOp) :
    BuildLogS × FileSys :=
  ops.foldl (fun s op =>
    recordCommand s.1 s.2 op.outputs op.command op.startT op.endT op.restatT) s

/-- The in-memory entries a run of `RecordCommand` invocations produces,
one per (op, output) pair in program order. -/
def flatOps (ops : List RecOp) : List LogEntry :=
  (ops.map (fun op =>
    op.outputs.map (fun o => (⟨o, op.startT, op.endT, op.restatT,
      op.command⟩ : LogEntry)))).flatten

/-! ## Round-trip lemmas: decimal rendering vs `atoi` -/

theorem toNat_digitChar {d : Nat} (h : d < 10) :
    (Char.ofNat (48 + d)).toNat = 48 + d := by
  interval_cases d <;> decide

theorem isDigitC_digitChar {d : Nat} (h : d < 10) :
    isDigitC (Char.ofNat (48 + d)) = true := by
  interval_cases d <;> decide

theorem natDigitsAux_all_digit (fuel : Nat) :
    ∀ n, ∀ c ∈ natDigitsAux fuel n, isDigitC c = true := by
  induction fuel with
  | zero => intro n c hc; simp [natDigitsAux] at hc
  | succ fuel ih =>
    intro n c hc
    by_cases h : n < 10
    · simp only [natDigitsAux, if_pos h, List.mem_singleton] at hc
      subst hc
      exact isDigitC_digitChar h
    · simp only [natDigitsAux, if_neg h] at hc
      rcases List.mem_append.mp hc with h1 | h2
      · exact ih (n / 10) c h1
      · simp only [List.mem_singleton] at h2
        subst h2
        exact isDigitC_digitChar (Nat.mod_lt _ (by omega))

theorem natDigits_all_digit (n : Nat) :
    ∀ c ∈ natDigits n, isDigitC c = true :=
  natDigitsAux_all_digit (n + 1) n

theorem natDigits_ne_nil (n : Nat) : natDigits n ≠ [] := by
  unfold natDigits natDigitsAux
  by_cases h : n < 10
  · rw [if_pos h]; simp
  · rw [if_neg h]; simp

theorem digitsVal_append {xs : List Char}
    (h : ∀ c ∈ xs, isDigitC c = true) (ys : List Char) (acc : Nat) :
    digitsVal (xs ++ ys) acc = digitsVal ys (digitsVal xs acc) := by
  induction xs generalizing acc with
  | nil => simp [digitsVal]
  | cons c cs ih =>
    have hc : isDigitC c = true := h c (by simp)
    simp only [List.cons_append, digitsVal, hc, if_pos]
    exact ih (fun d hd => h d (by simp [hd])) _

theorem digitsVal_natDigitsAux (fuel : Nat) :
    ∀ n, n < fuel → ∀ acc, digitsVal (natDigitsAux fuel n) acc =
      acc * 10 ^ (natDigitsAux fuel n).length + n := by
  induction fuel with
  | zero => intro n hn; omega
  | succ fuel ih =>
    intro n hn acc
    by_cases h : n < 10
    · simp only [natDigitsAux, if_pos h, digitsVal, isDigitC_digitChar h,
        if_pos, toNat_digitChar h, List.length_singleton]
      omega
    · simp only [natDigitsAux, if_neg h]
      have hlt : n / 10 < fuel := by
        have hds : n / 10 < n := Nat.div_lt_self (by omega) (by omega)
        omega
      rw [digitsVal_append (natDigitsAux_all_digit _ _)]
      have hm : n % 10 < 10 := Nat.mod_lt _ (by omega)
      simp only [digitsVal, isDigitC_digitChar hm, if_pos, toNat_digitChar hm]
      rw [ih _ hlt]
      simp only [List.length_append, List.length_singleton]
      have he : acc * 10 ^ ((natDigitsAux fuel (n / 10)).length + 1) =
          acc * 10 ^ (natDigitsAux fuel (n / 10)).length * 10 := by ring
      rw [he]
      omega

theorem digitsVal_natDigits (n : Nat) (acc : Nat) :
    digitsVal (natDigits n) acc = acc * 10 ^ (natDigits n).length + n :=
  digitsVal_natDigitsAux (n + 1) n (by omega) acc

theorem toNat_range_of_digit {c : Char} (h : isDigitC c = true) :
    48 ≤ c.toNat ∧ c.toNat ≤ 57 := by
  simp only [isDigitC, Bool.and_eq_true, decide_eq_true_eq] at h
  exact h

theorem not_space_of_digit {c : Char} (h : isDigitC c = true) :
    isSpaceC c = false := by
  obtain ⟨h1, h2⟩ := toNat_range_of_digit h
  simp only [isSpaceC, Bool.or_eq_false_iff, Bool.and_eq_false_iff,
    decide_eq_false_iff_not]
  omega

theorem ne_of_digit_of_toNat {c d : Char} (h : isDigitC c = true)
    (hd : ¬ (48 ≤ d.toNat ∧ d.toNat ≤ 57)) : c ≠ d := by
  intro he
  subst he
  exact hd (toNat_range_of_digit h)

theorem atoiM_intChars (i : Int) : atoiM (intChars i) = i := by
  by_cases hneg : i < 0
  · simp only [intChars, if_pos hneg, atoiM]
    rw [List.dropWhile_cons_of_neg (by decide)]
    simp only [List.headD_cons, if_pos rfl, List.tail_cons]
    rw [digitsVal_natDigits]
    simp only [zero_mul, zero_add]
    have h : ((i.natAbs : Nat) : Int) = -i := by
      rw [← Int.natAbs_neg]
      exact Int.natAbs_of_nonneg (by omega)
    rw [h]; simp
  · simp only [intChars, if_neg hneg, atoiM]
    obtain ⟨c, cs, hcons⟩ := List.exists_cons_of_ne_nil (natDigits_ne_nil i.natAbs)
    rw [hcons]
    have hc : isDigitC c = true := by
      apply natDigits_all_digit i.natAbs
      rw [hcons]; simp
    rw [List.dropWhile_cons_of_neg (by simp [not_space_of_digit hc])]
    simp only [List.headD_cons]
    rw [if_neg (ne_of_digit_of_toNat hc (by decide)),
       if_neg (ne_of_digit_of_toNat hc (by decide))]
    rw [← hcons, digitsVal_natDigits]
    simp only [zero_mul, zero_add]
    exact Int.natAbs_of_nonneg (by omega)

/-! ## Round-trip lemmas: record lines -/

/-- A record line with an explicit field separator; `entryLineSep '\t'` is
exactly `writeEntryLine`, and `entryLineSep ' '` builds the pre-v4 layout
records that `Load` parses for `log_version < 4`. -/
def entryLineSep (sep : Char) (e : LogEntry) : CStr :=
  intChars e.start_time ++ sep :: (intChars e.end_time ++ sep ::
    (intChars e.restat_mtime ++ sep :: (e.output ++ sep :: e.command)))

theorem entryLineSep_tab (e : LogEntry) : entryLineSep '\t' e = writeEntryLine e := rfl

theorem splitAtChar_append {sep : Char} {xs : List Char} (h : sep ∉ xs)
    (ys : List Char) : splitAtChar sep (xs ++ sep :: ys) = some (xs, ys) := by
  induction xs with
  | nil => simp [splitAtChar]
  | cons c cs ih =>
    have hc : ¬ c = sep := fun he => h (by simp [he])
    have hr := ih (fun hm => h (by simp [hm]))
    simp only [List.cons_append, splitAtChar, if_neg hc, List.append_eq, hr]
    rfl

/-- A separator that is neither a digit nor `'-'` does not occur in the
decimal rendering of an integer. -/
theorem sep_not_mem_intChars {sep : Char} (hsd : isDigitC sep = false)
    (hsm : sep ≠ '-') (i : Int) : sep ∉ intChars i := by
  intro hmem
  unfold intChars at hmem
  by_cases hneg : i < 0
  · rw [if_pos hneg] at hmem
    rcases List.mem_cons.mp hmem with h | h
    · exact hsm h
    · rw [natDigits_all_digit _ _ h] at hsd; cases hsd
  · rw [if_neg hneg] at hmem
    rw [natDigits_all_digit _ _ hmem] at hsd; cases hsd

theorem parseLine_entryLineSep {sep : Char} (e : LogEntry)
    (hsd : isDigitC sep = false) (hsm : sep ≠ '-') (hout : sep ∉ e.output) :
    parseLine sep (entryLineSep sep e) =
      some (e.start_time, e.end_time, e.restat_mtime, e.output, e.command) := by
  have h1 := sep_not_mem_intChars hsd hsm e.start_time
  have h2 := sep_not_mem_intChars hsd hsm e.end_time
  have h3 := sep_not_mem_intChars hsd hsm e.restat_mtime
  simp only [parseLine, entryLineSep, splitAtChar_append h1,
    splitAtChar_append h2, splitAtChar_append h3, splitAtChar_append hout,
    atoiM_intChars]

/-! ## Line decomposition of well-formed log files -/

theorem toLinesAux_fuel : ∀ fuel1 fuel2 l, l.length < fuel1 →
    l.length < fuel2 → toLinesAux fuel1 l = toLinesAux fuel2 l := by
  intro fuel1
  induction fuel1 with
  | zero => intro fuel2 l h1; omega
  | succ fuel1 ih =>
    intro fuel2 l h1 h2
    cases fuel2 with
    | zero => omega
    | succ fuel2 =>
      cases l with
      | nil => rfl
      | cons c cs =>
        show (match splitAtChar '\n' (c :: cs) with
          | some (line, rest) => (line, true) :: toLinesAux fuel1 rest
          | none => [(c :: cs, false)]) =
          (match splitAtChar '\n' (c :: cs) with
          | some (line, rest) => (line, true) :: toLinesAux fuel2 rest
          | none => [(c :: cs, false)])
        cases hsp : splitAtChar '\n' (c :: cs) with
        | none => rfl
        | some p =>
          obtain ⟨line, rest⟩ := p
          have hlen := splitAtChar_length hsp
          simp only [List.length_cons] at hlen h1 h2
          simp only []
          rw [ih fuel2 rest (by omega) (by omega)]

theorem toLinesAux_step (fuel : Nat) (l : List Char) (hne : l ≠ []) :
    toLinesAux (fuel + 1) l = (match splitAtChar '\n' l with
      | some (line, rest) => (line, true) :: toLinesAux fuel rest
      | none => [(l, false)]) := by
  cases l with
  | nil => cases hne rfl
  | cons c cs => rfl

theorem toLines_append_newline {l1 : List Char} (h : ('\n' : Char) ∉ l1)
    (rest : List Char) :
    toLines (l1 ++ '\n' :: rest) = (l1, true) :: toLines rest := by
  unfold toLines
  rw [toLinesAux_step _ _ (by simp), splitAtChar_append h]
  simp only []
  congr 1
  exact toLinesAux_fuel _ _ rest (by simp; omega) (by omega)

/-- The concatenated record lines of a list of entries, each terminated
by a newline. -/
def recordsChars (sep : Char) (es : List LogEntry) : CStr :=
  (es.map (fun e => entryLineSep sep e ++ ['\n'])).flatten

/-- The well-formedness a record must satisfy for the on-disk format to
be able to carry it (spec §6: output and command must not contain the
separator or a newline; the output additionally must be separator-free so
that the fourth field ends where the output ends). -/
def entryOk (sep : Char) (e : LogEntry) : Prop :=
  sep ∉ e.output ∧ ('\n' : Char) ∉ e.output ∧ ('\n' : Char) ∉ e.command

instance (sep : Char) (e : LogEntry) : Decidable (entryOk sep e) := by
  unfold entryOk; infer_instance

theorem newline_not_mem_entryLineSep {sep : Char} {e : LogEntry}
    (hsn : sep ≠ '\n') (ho : ('\n' : Char) ∉ e.output)
    (hc : ('\n' : Char) ∉ e.command) :
    ('\n' : Char) ∉ entryLineSep sep e := by
  have hn1 : ∀ i : Int, ('\n' : Char) ∉ intChars i :=
    fun i => sep_not_mem_intChars (by decide) (by decide) i
  intro hmem
  simp only [entryLineSep, List.mem_append, List.mem_cons] at hmem
  rcases hmem with h | h | h | h | h | h | h | h | h
  · exact hn1 _ h
  · exact hsn h.symm
  · exact hn1 _ h
  · exact hsn h.symm
  · exact hn1 _ h
  · exact hsn h.symm
  · exact ho h
  · exact hsn h.symm
  · exact hc h

theorem toLines_recordsChars {sep : Char} (hsn : sep ≠ '\n')
    (es : List LogEntry) (h : ∀ e ∈ es, entryOk sep e) :
    toLines (recordsChars sep es) =
      es.map (fun e => (entryLineSep sep e, true)) := by
  induction es with
  | nil => rfl
  | cons e es ih =>
    obtain ⟨h1, h2, h3⟩ := h e (by simp)
    have hline : ('\n' : Char) ∉ entryLineSep sep e :=
      newline_not_mem_entryLineSep hsn h2 h3
    have hassoc : recordsChars sep (e :: es) =
        entryLineSep sep e ++ '\n' :: recordsChars sep es := by
      simp [recordsChars, List.append_assoc]
    rw [hassoc, toLines_append_newline hline]
    rw [ih (fun x hx => h x (by simp [hx]))]
    rfl

/-! ## The signature line -/

/-- The signature line without its newline. -/
def sigBody (v : Int) : CStr := "# ninja log v".toList ++ intChars v

theorem signatureLine_eq (v : Int) (r : CStr) :
    signatureLine v ++ r = sigBody v ++ '\n' :: r := by
  simp [signatureLine, sigBody, List.append_assoc]

theorem newline_not_mem_sigBody (v : Int) : ('\n' : Char) ∉ sigBody v := by
  intro hmem
  rcases List.mem_append.mp hmem with h | h
  · revert h; decide
  · exact sep_not_mem_intChars (by decide) (by decide) v h

theorem scanDigitsAux_digits {ds : List Char}
    (h : ∀ c ∈ ds, isDigitC c = true) (acc : Nat) :
    scanDigits.scanDigitsAux ds acc = (digitsVal ds acc, []) := by
  induction ds generalizing acc with
  | nil => rfl
  | cons c cs ih =>
    have hc := h c (by simp)
    simp only [scanDigits.scanDigitsAux, digitsVal, hc, if_pos]
    exact ih (fun d hd => h d (by simp [hd])) _

theorem scanDigits_natDigits (n : Nat) :
    scanDigits (natDigits n) = some (n, []) := by
  obtain ⟨c, cs, hcons⟩ := List.exists_cons_of_ne_nil (natDigits_ne_nil n)
  have hc : isDigitC c = true := by
    apply natDigits_all_digit n; rw [hcons]; simp
  rw [hcons]
  simp only [scanDigits, hc, if_pos]
  rw [scanDigitsAux_digits (fun d hd => natDigits_all_digit n d
    (by rw [hcons]; simp [hd]))]
  have hv : digitsVal cs (c.toNat - 48) = digitsVal (c :: cs) 0 := by
    simp [digitsVal, hc]
  rw [hv, ← hcons, digitsVal_natDigits]
  simp

theorem scanIntTok_intChars (i : Int) : scanIntTok (intChars i) = some (i, []) := by
  by_cases hneg : i < 0
  · simp only [intChars, if_pos hneg, scanIntTok, dropWs]
    rw [List.dropWhile_cons_of_neg (by decide)]
    simp only [List.headD_cons, if_pos rfl, List.tail_cons]
    rw [scanDigits_natDigits]
    have h2 : ((i.natAbs : Nat) : Int) = -i := by
      rw [← Int.natAbs_neg]
      exact Int.natAbs_of_nonneg (by omega)
    simp [h2]
  · simp only [intChars, if_neg hneg, scanIntTok, dropWs]
    obtain ⟨c, cs, hcons⟩ := List.exists_cons_of_ne_nil (natDigits_ne_nil i.natAbs)
    have hc : isDigitC c = true := by
      apply natDigits_all_digit i.natAbs; rw [hcons]; simp
    rw [hcons]
    rw [List.dropWhile_cons_of_neg (by simp [not_space_of_digit hc])]
    simp only [List.headD_cons]
    rw [if_neg (ne_of_digit_of_toNat hc (by decide)),
       if_neg (ne_of_digit_of_toNat hc (by decide))]
    rw [← hcons, scanDigits_natDigits]
    simp only [Option.map_some']
    rw [Int.natAbs_of_nonneg (by omega)]

theorem parseSig_sigBody (v : Int) : parseSig (sigBody v) = some v := by
  have h : parseSig (sigBody v) =
      (scanIntTok (intChars v)).bind (fun p => some p.1) := rfl
  rw [h, scanIntTok_intChars]
  rfl

/-! ## The `Load` fold over the lines of a well-formed file -/

/-- How many of the given records open a fresh key, processed in order
against the in-memory map `L` (the growth of `unique_entry_count`). -/
def countNew : List LogEntry → List LogEntry → Nat
  | _, [] => 0
  | L, e :: es =>
    (if (logFind L e.output).isSome then 0 else 1) + countNew (logUpdate L e) es

theorem logUpdate_of_find_none {L : List LogEntry} {e : LogEntry}
    (h : logFind L e.output = none) : logUpdate L e = L ++ [e] := by
  induction L with
  | nil => rfl
  | cons x xs ih =>
    simp only [logFind] at h
    by_cases hx : x.output = e.output
    · rw [if_pos hx] at h; cases h
    · rw [if_neg hx] at h
      simp only [logUpdate, if_neg hx, List.cons_append]
      rw [ih h]

theorem loadRecord_entry {sep : Char} (st : LoadState) (e : LogEntry)
    (hsep : (if st.version ≥ 4 then '\t' else ' ') = sep)
    (hp : parseLine sep (entryLineSep sep e) =
      some (e.start_time, e.end_time, e.restat_mtime, e.output, e.command)) :
    loadRecord st (entryLineSep sep e) true =
      { st with log := logUpdate st.log e,
                unique := st.unique +
                  (if (logFind st.log e.output).isSome then 0 else 1),
                total := st.total + 1 } := by
  unfold loadRecord
  simp only [hsep, hp]
  cases hf : logFind st.log e.output with
  | some x =>
    simp only [hf, Option.isSome_some, if_true]
    rfl
  | none =>
    simp only [hf, Option.isSome_none]
    rw [logUpdate_of_find_none hf]
    rfl

theorem loadFold_entries {sep : Char} (hsd : isDigitC sep = false)
    (hsm : sep ≠ '-') (es : List LogEntry) :
    ∀ st : LoadState, st.version ≠ 0 →
    (if st.version ≥ 4 then '\t' else ' ') = sep →
    (∀ e ∈ es, sep ∉ e.output) →
    List.foldl (fun s p => loadLine s p.1 p.2) st
      (es.map (fun e => (entryLineSep sep e, true))) =
      { version := st.version, log := List.foldl logUpdate st.log es,
        unique := st.unique + countNew st.log es,
        total := st.total + es.length } := by
  induction es with
  | nil =>
    intro st hv0 hsep hok
    simp only [List.map_nil, List.foldl_nil, countNew, List.length_nil,
      Nat.add_zero]
  | cons e es ih =>
    intro st hv0 hsep hok
    simp only [List.map_cons, List.foldl_cons]
    have hstep : loadLine st (entryLineSep sep e) true =
        loadRecord st (entryLineSep sep e) true := by
      simp [loadLine, hv0]
    rw [hstep, loadRecord_entry st e hsep
      (parseLine_entryLineSep e hsd hsm (hok e (by simp)))]
    rw [ih _ (by simpa using hv0) (by simpa using hsep)
      (fun x hx => hok x (by simp [hx]))]
    simp only [List.foldl_cons, countNew, List.length_cons]
    have hLen : st.total + 1 + es.length = st.total + (es.length + 1) := by omega
    have hUniq : st.unique + (if (logFind st.log e.output).isSome then 0 else 1)
        + countNew (logUpdate st.log e) es =
        st.unique + ((if (logFind st.log e.output).isSome then 0 else 1)
          + countNew (logUpdate st.log e) es) := by omega
    rw [hLen, hUniq]

/-- A complete well-formed log file: signature for version `v`, then the
record lines of `es` with the separator `sep`. -/
def fileOfEntries (v : Int) (sep : Char) (es : List LogEntry) : CStr :=
  signatureLine v ++ recordsChars sep es

theorem loadContent_fileOfEntries {v : Int} {sep : Char} (hv0 : v ≠ 0)
    (hsep : (if v ≥ 4 then '\t' else ' ') = sep) (hsd : isDigitC sep = false)
    (hsm : sep ≠ '-') (hsn : sep ≠ '\n') (es : List LogEntry)
    (hok : ∀ e ∈ es, entryOk sep e) (log0 : List LogEntry) :
    loadContent log0 (fileOfEntries v sep es) =
      ⟨v, List.foldl logUpdate log0 es, countNew log0 es, es.length⟩ := by
  unfold loadContent fileOfEntries
  rw [signatureLine_eq, toLines_append_newline (newline_not_mem_sigBody v)]
  rw [toLines_recordsChars hsn es hok]
  simp only [List.foldl_cons]
  have hfirst : loadLine ⟨0, log0, 0, 0⟩ (sigBody v) true =
      ⟨v, log0, 0, 0⟩ := by
    simp [loadLine, parseSig_sigBody]
  rw [hfirst]
  rw [loadFold_entries hsd hsm es ⟨v, log0, 0, 0⟩ hv0 hsep
    (fun e he => (hok e he).1)]
  simp

/-! ## Filesystem lemmas -/

theorem fsLookup_fsWrite_self (fs : FileSys) (p c) :
    fsLookup (fsWrite fs p c) p = some c := by
  induction fs with
  | nil => simp [fsWrite, fsLookup]
  | cons x fs ih =>
    obtain ⟨q, d⟩ := x
    by_cases hq : q = p
    · simp [fsWrite, hq, fsLookup]
    · simp only [fsWrite, if_neg hq, fsLookup, ih, if_neg hq]

theorem fsLookup_fsWrite_other {q p : CStr} (h : q ≠ p) (fs : FileSys) (c) :
    fsLookup (fsWrite fs p c) q = fsLookup fs q := by
  have hpq : ¬ p = q := fun he => h he.symm
  induction fs with
  | nil => simp [fsWrite, fsLookup, hpq]
  | cons x fs ih =>
    obtain ⟨r, d⟩ := x
    by_cases hr : r = p
    · subst hr
      simp only [fsWrite, if_pos rfl, fsLookup, if_neg hpq, ih]
    · simp only [fsWrite, if_neg hr, fsLookup, ih]

theorem fsWrite_fsWrite (fs : FileSys) (p a b) :
    fsWrite (fsWrite fs p a) p b = fsWrite fs p b := by
  induction fs with
  | nil => simp [fsWrite]
  | cons x fs ih =>
    obtain ⟨q, d⟩ := x
    by_cases hq : q = p
    · simp [fsWrite, hq]
    · simp [fsWrite, hq, ih]

theorem fsWrite_lookup_id {fs : FileSys} {p c} (h : fsLookup fs p = some c) :
    fsWrite fs p c = fs := by
  induction fs with
  | nil => simp [fsLookup] at h
  | cons x fs ih =>
    obtain ⟨q, d⟩ := x
    by_cases hq : q = p
    · subst hq
      simp [fsLookup] at h
      simp [fsWrite, h]
    · simp only [fsLookup, if_neg hq] at h
      simp [fsWrite, hq, ih h]

theorem fsAppend_of_lookup {fs : FileSys} {p c} (h : fsLookup fs p = some c)
    (extra : CStr) : fsAppend fs p extra = fsWrite fs p (c ++ extra) := by
  simp [fsAppend, h]

theorem fsLookup_fsRemove_self (fs : FileSys) (p) :
    fsLookup (fsRemove fs p) p = none := by
  induction fs with
  | nil => rfl
  | cons x fs ih =>
    obtain ⟨q, d⟩ := x
    by_cases hq : q = p
    · simp [fsRemove, hq, ih]
    · simp [fsRemove, hq, fsLookup, ih]

theorem fsLookup_fsRemove_other {q p : CStr} (h : q ≠ p) (fs : FileSys) :
    fsLookup (fsRemove fs p) q = fsLookup fs q := by
  have hpq : ¬ p = q := fun he => h he.symm
  induction fs with
  | nil => rfl
  | cons x fs ih =>
    obtain ⟨r, d⟩ := x
    by_cases hr : r = p
    · subst hr
      simp [fsRemove, fsLookup, ih, hpq]
    · simp only [fsRemove, if_neg hr, fsLookup, ih]

/-- The temporary file name is never the log's own name. -/
theorem recompactTemp_ne (path : CStr) : recompactTemp path ≠ path := by
  intro h
  have hl : (recompactTemp path).length = path.length := by rw [h]
  simp [recompactTemp] at hl

/-! ## `RecordCommand` runs -/

/-- The entries one `RecordCommand` invocation inserts, one per output. -/
def entriesOf (outs : List CStr) (cmd : CStr) (t1 t2 t3 : Int) :
    List LogEntry :=
  outs.map (fun o => ⟨o, t1, t2, t3, cmd⟩)

theorem flatOps_cons (op : RecOp) (ops : List RecOp) :
    flatOps (op :: ops) =
      entriesOf op.outputs op.command op.startT op.endT op.restatT
        ++ flatOps ops := by
  simp [flatOps, entriesOf]

theorem recordCommand_open (outs : List CStr) :
    ∀ (bl : BuildLogS) (fs : FileSys) (p c : CStr) (cmd : CStr) (t1 t2 t3 : Int),
    bl.openPath = some p → fsLookup fs p = some c →
    recordCommand bl fs outs cmd t1 t2 t3 =
      ({ bl with log := List.foldl logUpdate bl.log (entriesOf outs cmd t1 t2 t3) },
        fsWrite fs p (c ++ ((entriesOf outs cmd t1 t2 t3).map writeEntry).flatten)) := by
  induction outs with
  | nil =>
    intro bl fs p c cmd t1 t2 t3 hop hfs
    simp only [recordCommand, entriesOf, List.map_nil, List.foldl_nil,
      List.flatten_nil, List.append_nil]
    rw [fsWrite_lookup_id hfs]
  | cons out outs ih =>
    intro bl fs p c cmd t1 t2 t3 hop hfs
    simp only [recordCommand, List.foldl_cons]
    have hone : recordOne (bl, fs) out cmd t1 t2 t3 =
        ({ bl with log := logUpdate bl.log ⟨out, t1, t2, t3, cmd⟩ },
          fsWrite fs p (c ++ writeEntry ⟨out, t1, t2, t3, cmd⟩)) := by
      simp only [recordOne, hop]
      rw [fsAppend_of_lookup hfs]
    rw [hone]
    have hrec : List.foldl (fun s o => recordOne s o cmd t1 t2 t3)
        (({ bl with log := logUpdate bl.log ⟨out, t1, t2, t3, cmd⟩ },
          fsWrite fs p (c ++ writeEntry ⟨out, t1, t2, t3, cmd⟩)) :
            BuildLogS × FileSys) outs =
        recordCommand { bl with log := logUpdate bl.log ⟨out, t1, t2, t3, cmd⟩ }
          (fsWrite fs p (c ++ writeEntry ⟨out, t1, t2, t3, cmd⟩))
          outs cmd t1 t2 t3 := rfl
    rw [hrec]
    rw [ih { bl with log := logUpdate bl.log ⟨out, t1, t2, t3, cmd⟩ } _ p
      (c ++ writeEntry ⟨out, t1, t2, t3, cmd⟩) cmd t1 t2 t3 hop
      (fsLookup_fsWrite_self fs p _)]
    simp only [entriesOf, List.map_cons, List.foldl_cons, List.flatten_cons]
    rw [fsWrite_fsWrite, List.append_assoc]

theorem runRecords_open (ops : List RecOp) :
    ∀ (bl : BuildLogS) (fs : FileSys) (p c : CStr),
    bl.openPath = some p → fsLookup fs p = some c →
    runRecords (bl, fs) ops =
      ({ bl with log := List.foldl logUpdate bl.log (flatOps ops) },
        fsWrite fs p (c ++ ((flatOps ops).map writeEntry).flatten)) := by
  induction ops with
  | nil =>
    intro bl fs p c hop hfs
    simp only [runRecords, List.foldl_nil, flatOps, List.map_nil,
      List.flatten_nil, List.append_nil]
    rw [fsWrite_lookup_id hfs]
  | cons op ops ih =>
    intro bl fs p c hop hfs
    simp only [runRecords, List.foldl_cons]
    rw [recordCommand_open op.outputs bl fs p c op.command _ _ _ hop hfs]
    set E := entriesOf op.outputs op.command op.startT op.endT op.restatT with hE
    have hrun : List.foldl (fun s op => recordCommand s.1 s.2 op.outputs op.command op.startT op.endT op.restatT) (({ bl with log := List.foldl logUpdate bl.log E }, fsWrite fs p (c ++ (E.map writeEntry).flatten)) : BuildLogS × FileSys) ops = runRecords ({ bl with log := List.foldl logUpdate bl.log E }, fsWrite fs p (c ++ (E.map writeEntry).flatten)) ops := rfl
    rw [hrun]
    rw [ih { bl with log := List.foldl logUpdate bl.log E } _ p
      (c ++ (E.map writeEntry).flatten) hop (fsLookup_fsWrite_self fs p _)]
    rw [flatOps_cons, ← hE, List.foldl_append, fsWrite_fsWrite,
      List.map_append, List.flatten_append, List.append_assoc]

theorem recordsChars_tab (es : List LogEntry) :
    (es.map writeEntry).flatten = recordsChars '\t' es := by
  induction es with
  | nil => rfl
  | cons e es ih =>
    show writeEntry e ++ (es.map writeEntry).flatten =
      (entryLineSep '\t' e ++ ['\n']) ++ recordsChars '\t' es
    rw [ih]
    rfl

theorem openForWrite_fresh (path : CStr) :
    openForWrite freshBuildLog [] path =
      some ({ freshBuildLog with openPath := some path },
        [(path, signatureLine kCurrentVersion)]) := by
  have h3 : fsAppend [(path, ([] : CStr))] path (signatureLine kCurrentVersion)
      = [(path, signatureLine kCurrentVersion)] := by
    rw [fsAppend_of_lookup
      (show fsLookup [(path, ([] : CStr))] path = some [] by simp [fsLookup])]
    simp [fsWrite]
  have h0 : openForWrite freshBuildLog [] path =
      some ({ freshBuildLog with openPath := some path },
        fsAppend [(path, ([] : CStr))] path (signatureLine kCurrentVersion)) :=
    rfl
  rw [h0, h3]

/-- The validity of one `RecordCommand` invocation for the v4 on-disk
format (spec §6): no output contains a tab or newline, and the command
contains no newline. -/
def opValid (op : RecOp) : Prop :=
  (∀ out ∈ op.outputs, ('\t' : Char) ∉ out ∧ ('\n' : Char) ∉ out) ∧
    ('\n' : Char) ∉ op.command

instance (op : RecOp) : Decidable (opValid op) := by
  unfold opValid; infer_instance

theorem flatOps_entryOk {ops : List RecOp} (h : ∀ op ∈ ops, opValid op) :
    ∀ e ∈ flatOps ops, entryOk '\t' e := by
  intro e he
  unfold flatOps at he
  obtain ⟨l, hl, hel⟩ := List.mem_flatten.mp he
  obtain ⟨op, hop, rfl⟩ := List.mem_map.mp hl
  obtain ⟨out, hout, rfl⟩ := List.mem_map.mp hel
  obtain ⟨ho, hc⟩ := h op hop
  exact ⟨(ho out hout).1, (ho out hout).2, hc⟩

theorem logFind_append (A B : List LogEntry) (k : CStr) :
    logFind (A ++ B) k = match logFind A k with
      | some e => some e
      | none => logFind B k := by
  induction A with
  | nil => rfl
  | cons x xs ih =>
    by_cases hx : x.output = k
    · simp [logFind, hx]
    · simp [logFind, hx, ih]

theorem foldl_logUpdate_of_fresh :
    ∀ (M L : List LogEntry), (∀ e ∈ M, logFind L e.output = none) →
    M.Pairwise (fun a b => a.output ≠ b.output) →
    List.foldl logUpdate L M = L ++ M := by
  intro M
  induction M with
  | nil => intro L _ _; simp
  | cons e es ih =>
    intro L hfresh hpw
    simp only [List.foldl_cons]
    rw [logUpdate_of_find_none (hfresh e (by simp))]
    rw [ih (L ++ [e]) ?fresh (List.Pairwise.of_cons hpw)]
    · simp
    case fresh =>
      intro x hx
      rw [logFind_append]
      rw [hfresh x (by simp [hx])]
      have hne : e.output ≠ x.output :=
        (List.pairwise_cons.mp hpw).1 x hx
      simp [logFind, hne]

/-- The `BuildLog` state `OpenForWrite` leaves behind on a fresh path. -/
def openedFresh (path : CStr) : BuildLogS :=
  { freshBuildLog with openPath := some path }

/-- The filesystem after `OpenForWrite` created the log file: just the
signature. -/
def freshFS (path : CStr) : FileSys :=
  [(path, signatureLine kCurrentVersion)]

/-- C1.  For every finite run of `RecordCommand` invocations against a
freshly opened log file, closing the log and re-`Load`ing the same file
into a fresh `BuildLog` yields an in-memory map equal to the one held
before closing: the load replays exactly the same per-output
insert-or-overwrite sequence, so duplicate outputs resolve
last-writer-wins on both sides.  The validity hypothesis is the on-disk
format's own invariant (spec §6): outputs carry no tab or newline and
commands no newline. -/
theorem record_close_load_roundtrip (path : CStr) (ops : List RecOp)
    (hok : ∀ op ∈ ops, opValid op) :
    openForWrite freshBuildLog [] path = some (openedFresh path, freshFS path) ∧
    (loadBL freshBuildLog (runRecords (openedFresh path, freshFS path) ops).2
        path).log
      = (closeBL (runRecords (openedFresh path, freshFS path) ops).1).log := by
  constructor
  · exact openForWrite_fresh path
  · have hrun := runRecords_open ops (openedFresh path) (freshFS path) path
      (signatureLine kCurrentVersion) rfl (by simp [freshFS, fsLookup])
    rw [hrun]
    have hl : fsLookup (fsWrite (freshFS path) path
        (signatureLine kCurrentVersion ++
          ((flatOps ops).map writeEntry).flatten)) path =
        some (signatureLine kCurrentVersion ++
          ((flatOps ops).map writeEntry).flatten) :=
      fsLookup_fsWrite_self _ _ _
    simp only [loadBL, closeBL, hl]
    rw [show (freshBuildLog.log : List LogEntry) = [] from rfl]
    rw [show signatureLine kCurrentVersion ++
        ((flatOps ops).map writeEntry).flatten =
        fileOfEntries kCurrentVersion '\t' (flatOps ops) by
      rw [fileOfEntries, recordsChars_tab]]
    rw [loadContent_fileOfEntries (by decide) (by decide) (by decide)
      (by decide) (by decide) (flatOps ops) (flatOps_entryOk hok) []]
    rfl

/-- Witness run for the round trip: two invocations, the second
overwriting output `out1` (last-writer-wins). -/
def c1DemoOps : List RecOp :=
  [⟨["out1".toList, "out2".toList], "cc -o out1 out2".toList, 10, 20, 5⟩,
   ⟨["out1".toList], "cc -o out1 v2".toList, 30, 40, 6⟩]

/-- Witness path for the round trip. -/
def c1DemoPath : CStr := ".ninja_log".toList

theorem record_close_load_roundtrip_witness :
    (∀ op ∈ c1DemoOps, opValid op) ∧
    (openForWrite freshBuildLog [] c1DemoPath =
        some (openedFresh c1DemoPath, freshFS c1DemoPath) ∧
      (loadBL freshBuildLog
          (runRecords (openedFresh c1DemoPath, freshFS c1DemoPath)
            c1DemoOps).2 c1DemoPath).log
        = (closeBL (runRecords (openedFresh c1DemoPath, freshFS c1DemoPath)
            c1DemoOps).1).log) :=
  ⟨by decide, record_close_load_roundtrip c1DemoPath c1DemoOps (by decide)⟩

/-- C5.  For every in-memory map `M`, `Recompact` followed by a fresh
`Load` of the rewritten file yields exactly `M`: the sibling file holds a
fresh v4 signature plus one record per entry, and replaying it entry by
entry into an empty map reproduces `M` (its keys are distinct, the
`BuildLog` map invariant).  The validity hypotheses are the format's own
invariants (spec §6). -/
theorem recompact_load_roundtrip (M : List LogEntry) (fs : FileSys)
    (path : CStr) (hok : ∀ e ∈ M, entryOk '\t' e)
    (hdist : M.Pairwise (fun a b => a.output ≠ b.output))
    (hpresent : (fsLookup fs path).isSome) :
    ∃ fs2, recompact M fs path = some fs2 ∧
      fsLookup fs2 path = some (recompactContent M) ∧
      (loadBL freshBuildLog fs2 path).log = M := by
  have htemp : recompactTemp path ≠ path := recompactTemp_ne path
  have hpath3 : fsLookup (fsWrite fs (recompactTemp path)
      (recompactContent M)) path = fsLookup fs path :=
    fsLookup_fsWrite_other (Ne.symm htemp) fs _
  have hrec : recompact M fs path =
      if (fsLookup (fsWrite fs (recompactTemp path) (recompactContent M))
          path).isSome then
        some (fsRename (fsRemove (fsWrite fs (recompactTemp path)
          (recompactContent M)) path) (recompactTemp path) path)
      else none := rfl
  rw [hpath3] at hrec
  rw [if_pos hpresent] at hrec
  refine ⟨_, hrec, ?_, ?_⟩
  · have h4 : fsLookup (fsRemove (fsWrite fs (recompactTemp path)
        (recompactContent M)) path) (recompactTemp path) =
        some (recompactContent M) := by
      rw [fsLookup_fsRemove_other htemp, fsLookup_fsWrite_self]
    simp only [fsRename, h4]
    exact fsLookup_fsWrite_self _ _ _
  · have h4 : fsLookup (fsRemove (fsWrite fs (recompactTemp path)
        (recompactContent M)) path) (recompactTemp path) =
        some (recompactContent M) := by
      rw [fsLookup_fsRemove_other htemp, fsLookup_fsWrite_self]
    have h6 : fsLookup (fsRename (fsRemove (fsWrite fs (recompactTemp path)
        (recompactContent M)) path) (recompactTemp path) path) path =
        some (recompactContent M) := by
      simp only [fsRename, h4]
      exact fsLookup_fsWrite_self _ _ _
    have h7 : recompactContent M = fileOfEntries kCurrentVersion '\t' M := by
      rw [fileOfEntries, ← recordsChars_tab]
      rfl
    simp only [loadBL, h6]
    rw [h7, show (freshBuildLog.log : List LogEntry) = [] from rfl,
      loadContent_fileOfEntries (by decide) (by decide) (by decide)
        (by decide) (by decide) M hok []]
    simp only []
    rw [foldl_logUpdate_of_fresh M [] (fun e _ => rfl) hdist]
    simp

/-- Witness map for the compaction round trip. -/
def c5DemoLog : List LogEntry :=
  [⟨"a.o".toList, 1, 2, 3, "cc a.c".toList⟩,
   ⟨"b.o".toList, 4, 5, 6, "cc b.c".toList⟩]

theorem recompact_load_roundtrip_witness :
    ((∀ e ∈ c5DemoLog, entryOk '\t' e) ∧
      c5DemoLog.Pairwise (fun a b => a.output ≠ b.output) ∧
      (fsLookup [(c1DemoPath, "old".toList)] c1DemoPath).isSome) ∧
    (∃ fs2, recompact c5DemoLog [(c1DemoPath, "old".toList)] c1DemoPath =
        some fs2 ∧
      fsLookup fs2 c1DemoPath = some (recompactContent c5DemoLog) ∧
      (loadBL freshBuildLog fs2 c1DemoPath).log = c5DemoLog) :=
  ⟨⟨by decide, by decide, by decide⟩,
    recompact_load_roundtrip c5DemoLog [(c1DemoPath, "old".toList)]
      c1DemoPath (by decide) (by decide) (by decide)⟩

/-! ## The number of distinct output paths -/

/-- The number of distinct strings in a list (each string counted at its
last occurrence). -/
def numDistinct : List CStr → Nat
  | [] => 0
  | k :: ks => (if k ∈ ks then 0 else 1) + numDistinct ks

theorem numDistinct_toFinset (ks : List CStr) :
    numDistinct ks = ks.toFinset.card := by
  induction ks with
  | nil => rfl
  | cons k ks ih =>
    simp only [numDistinct, List.toFinset_cons]
    by_cases hk : k ∈ ks
    · rw [if_pos hk, ih,
        Finset.insert_eq_self.mpr (List.mem_toFinset.mpr hk)]
      omega
    · rw [if_neg hk, ih,
        Finset.card_insert_of_not_mem (fun hc => hk (List.mem_toFinset.mp hc))]
      omega

theorem logFind_isSome_iff (L : List LogEntry) (k : CStr) :
    (logFind L k).isSome = true ↔ k ∈ L.map (fun e => e.output) := by
  induction L with
  | nil => simp [logFind]
  | cons e L ih =>
    by_cases he : e.output = k
    · simp [logFind, he]
    · simp only [logFind, if_neg he, List.map_cons, List.mem_cons]
      rw [ih]
      constructor
      · exact Or.inr
      · rintro (h | h)
        · exact absurd h.symm he
        · exact h

theorem map_output_logUpdate (L : List LogEntry) (e : LogEntry) :
    (logUpdate L e).map (fun x => x.output) =
      if (logFind L e.output).isSome then L.map (fun x => x.output)
      else L.map (fun x => x.output) ++ [e.output] := by
  induction L with
  | nil => simp [logUpdate, logFind]
  | cons x L ih =>
    by_cases hx : x.output = e.output
    · simp [logUpdate, logFind, hx]
    · have hstep : logUpdate (x :: L) e = x :: logUpdate L e := by
        simp [logUpdate, hx]
      have hfind : logFind (x :: L) e.output = logFind L e.output := by
        simp [logFind, hx]
      rw [hstep, hfind, List.map_cons, ih]
      by_cases hf : (logFind L e.output).isSome
      · rw [if_pos hf, if_pos hf]
        rfl
      · rw [if_neg hf, if_neg hf]
        rfl

theorem card_insert_sdiff_succ {k : CStr} {S T : Finset CStr} (hk : k ∉ T) :
    ((insert k S) \ T).card = (S \ insert k T).card + 1 := by
  have h1 : (insert k S) \ T = insert k (S \ T) := by
    ext x
    simp only [Finset.mem_sdiff, Finset.mem_insert]
    constructor
    · rintro ⟨hx | hx, hnx⟩
      · exact Or.inl hx
      · exact Or.inr ⟨hx, hnx⟩
    · rintro (hx | ⟨hx, hnx⟩)
      · subst hx; exact ⟨Or.inl rfl, hk⟩
      · exact ⟨Or.inr hx, hnx⟩
  have h2 : S \ insert k T = (S \ T).erase k := by
    ext x
    simp only [Finset.mem_sdiff, Finset.mem_insert, Finset.mem_erase]
    tauto
  rw [h1, h2]
  by_cases hks : k ∈ S \ T
  · rw [Finset.insert_eq_self.mpr hks, Finset.card_erase_add_one hks]
  · rw [Finset.card_insert_of_not_mem hks,
      Finset.erase_eq_self.mpr hks]

theorem countNew_sdiff (es : List LogEntry) : ∀ L : List LogEntry,
    countNew L es = ((es.map (fun e => e.output)).toFinset \
      (L.map (fun e => e.output)).toFinset).card := by
  induction es with
  | nil => intro L; simp [countNew]
  | cons e es ih =>
    intro L
    simp only [countNew, List.map_cons, List.toFinset_cons]
    by_cases hf : (logFind L e.output).isSome
    · rw [if_pos hf, ih (logUpdate L e)]
      have hkeys : (logUpdate L e).map (fun x => x.output) =
          L.map (fun x => x.output) := by
        rw [map_output_logUpdate, if_pos hf]
      rw [hkeys]
      have hmem : e.output ∈ (L.map (fun x => x.output)).toFinset :=
        List.mem_toFinset.mpr ((logFind_isSome_iff L e.output).mp hf)
      rw [Finset.insert_sdiff_of_mem _ hmem]
      omega
    · rw [if_neg hf, ih (logUpdate L e)]
      have hkeys : (logUpdate L e).map (fun x => x.output) =
          L.map (fun x => x.output) ++ [e.output] := by
        rw [map_output_logUpdate, if_neg hf]
      rw [hkeys]
      have hnotmem : e.output ∉ (L.map (fun x => x.output)).toFinset := by
        rw [List.mem_toFinset]
        intro hc
        exact hf ((logFind_isSome_iff L e.output).mpr hc)
      have hT : ((L.map (fun x => x.output)) ++ [e.output]).toFinset =
          insert e.output (L.map (fun x => x.output)).toFinset := by
        rw [List.toFinset_append]
        simp only [Finset.union_comm]
        ext x
        simp [Finset.mem_union, Finset.mem_insert, Finset.mem_singleton,
          Or.comm]
      rw [hT, card_insert_sdiff_succ hnotmem]
      omega

theorem countNew_nil_eq_numDistinct (es : List LogEntry) :
    countNew [] es = numDistinct (es.map (fun e => e.output)) := by
  rw [countNew_sdiff es [], numDistinct_toFinset]
  simp

/-- C4.  After a fresh `Load` of a version-4 file holding the records of
`es` (`total = es.length` records, of which `numDistinct` output paths
are distinct), `needs_recompaction_` is set iff
`total > max(100, 3·unique)`: the code's
`total > 100 && total > unique * 3` (build_log.cc:266-267) is exactly
that inequality. -/
theorem load_sets_recompaction_iff (path : CStr) (es : List LogEntry)
    (hok : ∀ e ∈ es, entryOk '\t' e) :
    (loadBL freshBuildLog [(path, fileOfEntries 4 '\t' es)]
        path).needsRecompaction = true
      ↔ es.length > max 100 (3 * numDistinct (es.map (fun e => e.output))) := by
  have hl : fsLookup [(path, fileOfEntries 4 '\t' es)] path =
      some (fileOfEntries 4 '\t' es) := by simp [fsLookup]
  simp only [loadBL, hl]
  rw [show (freshBuildLog.log : List LogEntry) = [] from rfl,
    loadContent_fileOfEntries (by decide) (by decide) (by decide)
      (by decide) (by decide) es hok []]
  simp only [loadSetsRecompaction, kCurrentVersion]
  rw [countNew_nil_eq_numDistinct]
  have h4 : ¬ ((4 : Int) < 4) := by decide
  rw [if_neg h4]
  simp only [show freshBuildLog.needsRecompaction = false from rfl,
    Bool.false_or]
  constructor
  · intro h
    split_ifs at h with hb
    simp only [Bool.and_eq_true, decide_eq_true_eq] at hb
    omega
  · intro h
    have hb : (decide (es.length > 100) && decide (es.length >
        numDistinct (es.map (fun e => e.output)) * 3)) = true := by
      simp only [Bool.and_eq_true, decide_eq_true_eq]
      omega
    rw [if_pos hb]

/-- Records for the concrete recompaction-threshold instances: `total`
entries whose outputs cycle through `uniq` distinct decimal names. -/
def c4Entries (total uniq : Nat) : List LogEntry :=
  (List.range total).map (fun i => ⟨natDigits (i % uniq), 0, 0, 0, ['c']⟩)

set_option maxRecDepth 100000 in
theorem load_sets_recompaction_iff_witness :
    (∀ e ∈ c4Entries 400 50, entryOk '\t' e) ∧
    (loadBL freshBuildLog
        [(c1DemoPath, fileOfEntries 4 '\t' (c4Entries 400 50))]
        c1DemoPath).needsRecompaction = true ∧
    (∀ e ∈ c4Entries 100 100, entryOk '\t' e) ∧
    (loadBL freshBuildLog
        [(c1DemoPath, fileOfEntries 4 '\t' (c4Entries 100 100))]
        c1DemoPath).needsRecompaction = false := by
  refine ⟨by decide, ?_, by decide, ?_⟩
  · exact (load_sets_recompaction_iff c1DemoPath (c4Entries 400 50)
      (by decide)).mpr (by decide)
  · have hiff := load_sets_recompaction_iff c1DemoPath (c4Entries 100 100)
      (by decide)
    have hne : ¬ ((c4Entries 100 100).length > max 100
        (3 * numDistinct ((c4Entries 100 100).map (fun e => e.output)))) := by
      decide
    rcases hb : (loadBL freshBuildLog
        [(c1DemoPath, fileOfEntries 4 '\t' (c4Entries 100 100))]
        c1DemoPath).needsRecompaction with _ | _
    · rfl
    · exact absurd (hiff.mp hb) hne

/-! ## Version-`<4` files -/

/-- A version-3 log file whose single record carries no `restat_mtime`
column: `1 2 out echo hi` is meant as start `1`, end `2`, output `out`,
command `echo hi`. -/
def c2File : CStr := "# ninja log v3\n1 2 out echo hi\n".toList

/-- C2 fails on the code: `Load` does not normalise a version-`<4` record
that lacks the `restat_mtime` column.  The parser always consumes five
fields (build_log.cc:205-237), merely switching the separator to a space;
on the record above it takes `out` as the `restat_mtime` field
(`atol("out") = 0`) and `echo` as the output, so the map holds an entry
keyed `echo` with command `hi` and no entry for `out` — the output path
and command are not recovered. -/
theorem load_v3_no_restat_counterexample :
    (loadContent [] c2File).log =
      [⟨"echo".toList, 1, 2, 0, "hi".toList⟩] ∧
    logFind (loadContent [] c2File).log "out".toList = none := by decide

/-- C2 as amended.  `Load` accepts version-`<4` files, parsing records
with a space separator and the same five-field layout as v4 (start, end,
restat_mtime, output, command): records that do carry all five columns
are recovered exactly, and loading any version-`<4` file sets
`needs_recompaction_` (build_log.cc:264-265). -/
theorem load_v3_five_field (path : CStr) (es : List LogEntry)
    (hok : ∀ e ∈ es, entryOk ' ' e)
    (hdist : es.Pairwise (fun a b => a.output ≠ b.output)) :
    (loadBL freshBuildLog [(path, fileOfEntries 3 ' ' es)] path).log = es ∧
    (loadBL freshBuildLog [(path, fileOfEntries 3 ' ' es)]
        path).needsRecompaction = true := by
  have hl : fsLookup [(path, fileOfEntries 3 ' ' es)] path =
      some (fileOfEntries 3 ' ' es) := by simp [fsLookup]
  constructor
  · simp only [loadBL, hl]
    rw [show (freshBuildLog.log : List LogEntry) = [] from rfl,
      loadContent_fileOfEntries (by decide) (by decide) (by decide)
        (by decide) (by decide) es hok []]
    simp only []
    rw [foldl_logUpdate_of_fresh es [] (fun e _ => rfl) hdist]
    simp
  · simp only [loadBL, hl]
    rw [show (freshBuildLog.log : List LogEntry) = [] from rfl,
      loadContent_fileOfEntries (by decide) (by decide) (by decide)
        (by decide) (by decide) es hok []]
    rfl

/-- Witness entries for the version-3 load: space-free outputs, commands
with spaces, an explicit restat column. -/
def c2DemoLog : List LogEntry :=
  [⟨"out".toList, 1, 2, 7, "echo hi".toList⟩,
   ⟨"out2".toList, 3, 4, 0, "cc -c x.c".toList⟩]

theorem load_v3_five_field_witness :
    ((∀ e ∈ c2DemoLog, entryOk ' ' e) ∧
      c2DemoLog.Pairwise (fun a b => a.output ≠ b.output)) ∧
    ((loadBL freshBuildLog [(c1DemoPath, fileOfEntries 3 ' ' c2DemoLog)]
        c1DemoPath).log = c2DemoLog ∧
      (loadBL freshBuildLog [(c1DemoPath, fileOfEntries 3 ' ' c2DemoLog)]
        c1DemoPath).needsRecompaction = true) :=
  ⟨⟨by decide, by decide⟩,
    load_v3_five_field c1DemoPath c2DemoLog (by decide) (by decide)⟩

/-! ## Recompaction on disk -/

/-- Witness log and filesystem for the recompaction trace. -/
def c3Log : List LogEntry := [⟨"out".toList, 1, 2, 3, "cc".toList⟩]

/-- The counterexample's initial filesystem: the log lives at `"log"`. -/
def c3FS : FileSys := [("log".toList, "old".toList)]

/-- C3 fails on the code: `Recompact` does not replace the log by a
single atomic rename.  It `unlink`s `path` first and `rename`s the
sibling only afterwards (build_log.cc:310-315), so between the two steps
— state index 4 of the trace, versus the final state index 5 — the log is
absent from `path`, its contents existing only at `path + ".recompact"`. -/
theorem recompact_absent_window_counterexample :
    fsLookup ((recompactStates c3Log c3FS "log".toList).getD 4 [])
      "log".toList = none ∧
    fsLookup ((recompactStates c3Log c3FS "log".toList).getD 4 [])
      (recompactTemp "log".toList) = some (recompactContent c3Log) ∧
    fsLookup ((recompactStates c3Log c3FS "log".toList).getD 5 [])
      "log".toList = some (recompactContent c3Log) := by decide

/-- C3 as amended.  `Recompact(path)` writes a fresh v4 signature plus
exactly one record per in-memory entry to the sibling
`path + ".recompact"`, then `unlink`s `path` and `rename`s the sibling
over it.  The final filesystem holds the recompacted contents at `path`
with the sibling gone — but between the unlink and the rename (trace
index 4) the log is absent from `path`, its data existing only at the
sibling; the replacement is not one atomic rename. -/
theorem recompact_trace (log : List LogEntry) (fs : FileSys) (path : CStr)
    (hp : (fsLookup fs path).isSome) :
    recompact log fs path =
      some ((recompactStates log fs path).getD 5 []) ∧
    fsLookup ((recompactStates log fs path).getD 3 []) (recompactTemp path)
      = some (recompactContent log) ∧
    fsLookup ((recompactStates log fs path).getD 4 []) path = none ∧
    fsLookup ((recompactStates log fs path).getD 4 []) (recompactTemp path)
      = some (recompactContent log) ∧
    fsLookup ((recompactStates log fs path).getD 5 []) path
      = some (recompactContent log) ∧
    fsLookup ((recompactStates log fs path).getD 5 []) (recompactTemp path)
      = none := by
  have htemp : recompactTemp path ≠ path := recompactTemp_ne path
  have hcollapse : fsWrite (fsWrite (fsWrite fs (recompactTemp path) [])
      (recompactTemp path) (signatureLine kCurrentVersion))
      (recompactTemp path) (recompactContent log) =
      fsWrite fs (recompactTemp path) (recompactContent log) := by
    rw [fsWrite_fsWrite, fsWrite_fsWrite]
  have hget3 : (recompactStates log fs path).getD 3 [] =
      fsWrite fs (recompactTemp path) (recompactContent log) := by
    show fsWrite (fsWrite (fsWrite fs (recompactTemp path) [])
      (recompactTemp path) (signatureLine kCurrentVersion))
      (recompactTemp path) (recompactContent log) = _
    exact hcollapse
  have hget4 : (recompactStates log fs path).getD 4 [] =
      fsRemove (fsWrite fs (recompactTemp path) (recompactContent log))
        path := by
    show fsRemove (fsWrite (fsWrite (fsWrite fs (recompactTemp path) [])
      (recompactTemp path) (signatureLine kCurrentVersion))
      (recompactTemp path) (recompactContent log)) path = _
    rw [hcollapse]
  have hget5 : (recompactStates log fs path).getD 5 [] =
      fsRename (fsRemove (fsWrite fs (recompactTemp path)
        (recompactContent log)) path) (recompactTemp path) path := by
    show fsRename (fsRemove (fsWrite (fsWrite (fsWrite fs
      (recompactTemp path) []) (recompactTemp path)
      (signatureLine kCurrentVersion)) (recompactTemp path)
      (recompactContent log)) path) (recompactTemp path) path = _
    rw [hcollapse]
  have h3 : fsLookup (fsWrite fs (recompactTemp path) (recompactContent log))
      (recompactTemp path) = some (recompactContent log) :=
    fsLookup_fsWrite_self _ _ _
  have h4t : fsLookup (fsRemove (fsWrite fs (recompactTemp path)
      (recompactContent log)) path) (recompactTemp path) =
      some (recompactContent log) := by
    rw [fsLookup_fsRemove_other htemp]
    exact h3
  have h4p : fsLookup (fsRemove (fsWrite fs (recompactTemp path)
      (recompactContent log)) path) path = none :=
    fsLookup_fsRemove_self _ _
  have h5 : fsRename (fsRemove (fsWrite fs (recompactTemp path)
      (recompactContent log)) path) (recompactTemp path) path =
      fsWrite (fsRemove (fsRemove (fsWrite fs (recompactTemp path)
        (recompactContent log)) path) (recompactTemp path)) path
        (recompactContent log) := by
    simp only [fsRename, h4t]
  have h5p : fsLookup (fsRename (fsRemove (fsWrite fs (recompactTemp path)
      (recompactContent log)) path) (recompactTemp path) path) path =
      some (recompactContent log) := by
    rw [h5]
    exact fsLookup_fsWrite_self _ _ _
  have h5t : fsLookup (fsRename (fsRemove (fsWrite fs (recompactTemp path)
      (recompactContent log)) path) (recompactTemp path) path)
      (recompactTemp path) = none := by
    rw [h5, fsLookup_fsWrite_other htemp, fsLookup_fsRemove_self]
  have hrec : recompact log fs path =
      if (fsLookup (fsWrite fs (recompactTemp path) (recompactContent log))
          path).isSome then
        some (fsRename (fsRemove (fsWrite fs (recompactTemp path)
          (recompactContent log)) path) (recompactTemp path) path)
      else none := rfl
  rw [fsLookup_fsWrite_other (Ne.symm htemp)] at hrec
  rw [if_pos hp] at hrec
  rw [hget3, hget4, hget5]
  exact ⟨hrec, h3, h4p, h4t, h5p, h5t⟩

theorem recompact_trace_witness :
    (fsLookup c3FS "log".toList).isSome ∧
    (recompact c3Log c3FS "log".toList =
        some ((recompactStates c3Log c3FS "log".toList).getD 5 []) ∧
      fsLookup ((recompactStates c3Log c3FS "log".toList).getD 3 [])
        (recompactTemp "log".toList) = some (recompactContent c3Log) ∧
      fsLookup ((recompactStates c3Log c3FS "log".toList).getD 4 [])
        "log".toList = none ∧
      fsLookup ((recompactStates c3Log c3FS "log".toList).getD 4 [])
        (recompactTemp "log".toList) = some (recompactContent c3Log) ∧
      fsLookup ((recompactStates c3Log c3FS "log".toList).getD 5 [])
        "log".toList = some (recompactContent c3Log) ∧
      fsLookup ((recompactStates c3Log c3FS "log".toList).getD 5 [])
        (recompactTemp "log".toList) = none) :=
  ⟨by decide, recompact_trace c3Log c3FS "log".toList (by decide)⟩

/-! ## Dry run -/

theorem recordCommand_closed (outs : List CStr) :
    ∀ (bl : BuildLogS) (fs : FileSys) (cmd : CStr) (t1 t2 t3 : Int),
    bl.openPath = none →
    recordCommand bl fs outs cmd t1 t2 t3 =
      ({ bl with log := List.foldl logUpdate bl.log (entriesOf outs cmd t1 t2 t3) }, fs) := by
  induction outs with
  | nil =>
    intro bl fs cmd t1 t2 t3 hcl
    simp only [recordCommand, entriesOf, List.map_nil, List.foldl_nil]
  | cons out outs ih =>
    intro bl fs cmd t1 t2 t3 hcl
    simp only [recordCommand, List.foldl_cons]
    have hone : recordOne (bl, fs) out cmd t1 t2 t3 =
        ({ bl with log := logUpdate bl.log ⟨out, t1, t2, t3, cmd⟩ }, fs) := by
      simp only [recordOne, hcl]
    rw [hone]
    have hrec : List.foldl (fun s o => recordOne s o cmd t1 t2 t3)
        (({ bl with log := logUpdate bl.log ⟨out, t1, t2, t3, cmd⟩ }, fs) :
          BuildLogS × FileSys) outs =
        recordCommand { bl with log := logUpdate bl.log ⟨out, t1, t2, t3, cmd⟩ }
          fs outs cmd t1 t2 t3 := rfl
    rw [hrec, ih { bl with log := logUpdate bl.log ⟨out, t1, t2, t3, cmd⟩ }
      fs cmd t1 t2 t3 hcl]
    simp only [entriesOf, List.map_cons, List.foldl_cons]

theorem runRecords_closed (ops : List RecOp) :
    ∀ (bl : BuildLogS) (fs : FileSys), bl.openPath = none →
    runRecords (bl, fs) ops =
      ({ bl with log := List.foldl logUpdate bl.log (flatOps ops) }, fs) := by
  induction ops with
  | nil =>
    intro bl fs hcl
    simp only [runRecords, List.foldl_nil, flatOps, List.map_nil,
      List.flatten_nil]
  | cons op ops ih =>
    intro bl fs hcl
    simp only [runRecords, List.foldl_cons]
    rw [recordCommand_closed op.outputs bl fs op.command _ _ _ hcl]
    have hrun : List.foldl (fun s op => recordCommand s.1 s.2 op.outputs op.command op.startT op.endT op.restatT) (({ bl with log := List.foldl logUpdate bl.log (entriesOf op.outputs op.command op.startT op.endT op.restatT) }, fs) : BuildLogS × FileSys) ops = runRecords ({ bl with log := List.foldl logUpdate bl.log (entriesOf op.outputs op.command op.startT op.endT op.restatT) }, fs) ops := rfl
    rw [hrun, ih { bl with log := List.foldl logUpdate bl.log (entriesOf op.outputs op.command op.startT op.endT op.restatT) } fs hcl]
    rw [flatOps_cons, List.foldl_append]

/-- C8.  With a build configuration whose `dry_run` flag is set,
`OpenForWrite` reports success while leaving both the `BuildLog` object
and the filesystem exactly as they were — in particular `log_file_` stays
`NULL` — and every subsequent `RecordCommand` mutates only the in-memory
map, leaving the filesystem unchanged. -/
theorem dry_run_frame (bl : BuildLogS) (fs : FileSys) (path : CStr)
    (ops : List RecOp) (hdry : bl.config = some true)
    (hclosed : bl.openPath = none) :
    openForWrite bl fs path = some (bl, fs) ∧
    (runRecords (bl, fs) ops).2 = fs ∧
    (runRecords (bl, fs) ops).1 =
      { bl with log := List.foldl logUpdate bl.log (flatOps ops) } := by
  refine ⟨?_, ?_, ?_⟩
  · simp [openForWrite, hdry]
  · rw [runRecords_closed ops bl fs hclosed]
  · rw [runRecords_closed ops bl fs hclosed]

/-- Witness state for the dry run: a dry-run config, one entry already in
memory, a nonempty filesystem. -/
def c8BL : BuildLogS :=
  { log := [⟨"old.o".toList, 1, 1, 1, "cc old.c".toList⟩],
    openPath := none, config := some true, needsRecompaction := false }

theorem dry_run_frame_witness :
    (c8BL.config = some true ∧ c8BL.openPath = none) ∧
    (openForWrite c8BL c3FS c1DemoPath = some (c8BL, c3FS) ∧
      (runRecords (c8BL, c3FS) c1DemoOps).2 = c3FS ∧
      (runRecords (c8BL, c3FS) c1DemoOps).1 =
        { c8BL with log := List.foldl logUpdate c8BL.log (flatOps c1DemoOps) }) :=
  ⟨⟨rfl, rfl⟩, dry_run_frame c8BL c3FS c1DemoPath c1DemoOps rfl rfl⟩

/-! ## The deplist helper (`src/deplist_helper.cc`)

The POSIX build is modelled: the option string is `"f:o:hqd:r:e:"` plus
the long option `--command`, but the `switch` has cases only for
`'f'`, `'o'`, `'q'`, `'r'` and `'h'` (`'e'` and `'C'` are inside
`#ifdef _WIN32`), so `-d`, `-e`, `--command`, `-h` and unknown options
all reach `default: Usage(); return 0;`
(deplist_helper.cc:81-115).  Reading and parsing the input between the
option loop and the output dispatch never changes where the output is
routed and is not modelled; `Fatal` does not return. -/

/-- One parsed command-line option as `getopt_long` delivers it. -/
inductive DOpt
  | fmt (s : CStr)
  | outfile (s : CStr)
  | quiet
  | rel (s : CStr)
  | dbfile (s : CStr)
  | envfile (s : CStr)
  | cmdflag
  | help
deriving DecidableEq, Repr

/-- Where an invocation of the helper's `main` ends up. -/
inductive DOutcome
  | usageExit
  | fatalErr (msg : CStr)
  | wroteDb (db target : CStr)
deriving DecidableEq, Repr

/-- The option loop followed by the output dispatch
(deplist_helper.cc:199-204): `db_filename` is the constant
`".ninja_depdb"`, so the `if (db_filename)` branch is always taken —
without `-o` the program dies with `Fatal("-d requires -o")`, otherwise
it writes through the dependency database. -/
def deplistMain (opts : List DOpt) : DOutcome := deplistLoop opts none
where
  deplistLoop : List DOpt → Option CStr → DOutcome
    | [], out =>
      match out with
      | none => .fatalErr "-d requires -o".toList
      | some o => .wroteDb ".ninja_depdb".toList o
    | opt :: rest, out =>
      match opt with
      | .fmt s =>
        if s = "gcc".toList ∨ s = "cl".toList then deplistLoop rest out
        else .fatalErr "unknown input format".toList
      | .outfile s => deplistLoop rest (some s)
      | .quiet => deplistLoop rest out
      | .rel _ => deplistLoop rest out
      | .dbfile _ => .usageExit
      | .envfile _ => .usageExit
      | .cmdflag => .usageExit
      | .help => .usageExit

/-- C9 fails on the code as a statement about *every* invocation: an
invocation that actually passes `-d` (with `-o` as the claim's second
half expects) never routes any output and never reaches the
`"-d requires -o"` check — `'d'` has no `switch` case, so it falls to
`default:`, prints the usage text and exits 0.  The three `DOutcome`
constructors are mutually exclusive, so this outcome is neither a
database write nor the claimed fatal error. -/
theorem deplist_dashd_usage_counterexample :
    deplistMain [DOpt.dbfile "deps.db".toList, DOpt.outfile "out".toList]
      = DOutcome.usageExit := by decide

/-- The options whose `switch` cases fall through to the next iteration
of the loop on the POSIX build (with a recognised `-f` argument). -/
def dOptSurvives : DOpt → Prop
  | .fmt s => s = "gcc".toList ∨ s = "cl".toList
  | .outfile _ => True
  | .quiet => True
  | .rel _ => True
  | _ => False

instance (opt : DOpt) : Decidable (dOptSurvives opt) := by
  cases opt <;> (unfold dOptSurvives; infer_instance)

/-- The last `-o` argument, starting from `acc` (getopt overwrites
`output_filename` on each occurrence). -/
def lastOut : List DOpt → Option CStr → Option CStr
  | [], acc => acc
  | .outfile s :: rest, _ => lastOut rest (some s)
  | _ :: rest, acc => lastOut rest acc

/-- C9 as amended.  `-d` itself (like `-e`, `--command`, `-h` and unknown
options on the POSIX build) causes a usage exit before any output is
produced; for every invocation whose options survive the option loop,
the output is routed through the dependency database path
`".ninja_depdb"` unconditionally — the caller cannot choose a different
path — and when no `-o` was given the program terminates fatally with
`"-d requires -o"` instead of writing to stdout. -/
theorem deplist_db_routing (opts : List DOpt)
    (h : ∀ opt ∈ opts, dOptSurvives opt) :
    deplistMain opts = match lastOut opts none with
      | none => DOutcome.fatalErr "-d requires -o".toList
      | some o => DOutcome.wroteDb ".ninja_depdb".toList o := by
  unfold deplistMain
  have hgen : ∀ (l : List DOpt) (acc : Option CStr),
      (∀ opt ∈ l, dOptSurvives opt) →
      deplistMain.deplistLoop l acc = match lastOut l acc with
        | none => DOutcome.fatalErr "-d requires -o".toList
        | some o => DOutcome.wroteDb ".ninja_depdb".toList o := by
    intro l
    induction l with
    | nil => intro acc _; rfl
    | cons opt rest ih =>
      intro acc hall
      have hopt := hall opt (by simp)
      have hrest : ∀ x ∈ rest, dOptSurvives x :=
        fun x hx => hall x (by simp [hx])
      cases opt with
      | fmt s =>
        have hs : s = "gcc".toList ∨ s = "cl".toList := hopt
        simp only [deplistMain.deplistLoop, if_pos hs]
        rw [ih acc hrest]
        rfl
      | outfile s =>
        simp only [deplistMain.deplistLoop]
        rw [ih (some s) hrest]
        rfl
      | quiet =>
        simp only [deplistMain.deplistLoop]
        rw [ih acc hrest]
        rfl
      | rel s =>
        simp only [deplistMain.deplistLoop]
        rw [ih acc hrest]
        rfl
      | dbfile s => cases hopt
      | envfile s => cases hopt
      | cmdflag => cases hopt
      | help => cases hopt
  exact hgen opts none h

theorem deplist_db_routing_witness :
    (∀ opt ∈ [DOpt.fmt "gcc".toList, DOpt.quiet,
        DOpt.outfile "x.d".toList], dOptSurvives opt) ∧
    deplistMain [DOpt.fmt "gcc".toList, DOpt.quiet,
        DOpt.outfile "x.d".toList]
      = DOutcome.wroteDb ".ninja_depdb".toList "x.d".toList :=
  ⟨by decide, deplist_db_routing _ (by decide)⟩

/-! ## EvalString, State, StatCache and Plan

ninja_test.cc exercises `EvalString`, `State`, `StatCache` and `Plan`,
whose implementations (ninja.h / graph / build sources) are not part of
this repository.  The definitions in this section are therefore modelled
from the spec (§3, §4.1, §4.2, §4.5, §8 scenario 1, §9) rather than
translated from C++ sources. -/

/-- Modelled from the spec: an `EvalString` token (§3, §4.2), either a
literal or a variable reference. -/
inductive EvalTok
  | raw (s : CStr)
  | var (name : CStr)
deriving DecidableEq, Repr

/-- Modelled from the spec: the variable-name alphabet `[A-Za-z0-9_]`
(§4.1). -/
def isVarChar (c : Char) : Bool :=
  isDigitC c || (65 ≤ c.toNat && c.toNat ≤ 90) ||
    (97 ≤ c.toNat && c.toNat ≤ 122) || c = '_'

/-- Modelled from the spec: the maximal run of variable-name characters
(§4.1: `$name` where `name` is the maximal run of `[A-Za-z0-9_]`). -/
def spanName : List Char → List Char × List Char
  | [] => ([], [])
  | c :: cs =>
    if isVarChar c then
      let p := spanName cs
      (c :: p.1, p.2)
    else ([], c :: cs)

/-- Modelled from the spec: scan a braced name up to `}`; `none` is the
unterminated `${…}`, the only parse failure (§4.1). -/
def takeBraced : List Char → Option (List Char × List Char)
  | [] => none
  | c :: cs =>
    if c = '}' then some ([], cs)
    else (takeBraced cs).map (fun p => (c :: p.1, p.2))

/-- Modelled from the spec: `EvalString::Parse` (§4.1), fuelled for
structural recursion (every step consumes the leading character, so
`length + 1` fuel never runs out).  A `$` reference takes the forms `$$`,
`${name}` and `$name`; `@name` is the input-list reference the scenario's
template `cat @in > $out` uses (§8 scenario 1, §9: the `EdgeEnv` exposes
the special `in`/`out` tokens). -/
def evalParseAux : Nat → List Char → Option (List EvalTok)
  | 0, _ => none
  | fuel + 1, l =>
    match l with
    | [] => some []
    | '$' :: rest =>
      match rest with
      | '$' :: r => (evalParseAux fuel r).map (fun ts => .raw ['$'] :: ts)
      | '{' :: r =>
        match takeBraced r with
        | none => none
        | some (name, r2) =>
          (evalParseAux fuel r2).map (fun ts => .var name :: ts)
      | _ =>
        let p := spanName rest
        (evalParseAux fuel p.2).map (fun ts => .var p.1 :: ts)
    | '@' :: rest =>
      let p := spanName rest
      (evalParseAux fuel p.2).map (fun ts => .var p.1 :: ts)
    | c :: rest => (evalParseAux fuel rest).map (fun ts => .raw [c] :: ts)

/-- Modelled from the spec: `EvalString::Parse` (§4.1). -/
def evalParse (l : List Char) : Option (List EvalTok) :=
  evalParseAux (l.length + 1) l

/-- Modelled from the spec: `EvalString::Evaluate` (§4.1) — concatenate
tokens, querying `env` for each variable token. -/
def evalEvaluate (env : CStr → CStr) : List EvalTok → CStr
  | [] => []
  | .raw s :: ts => s ++ evalEvaluate env ts
  | .var n :: ts => env n ++ evalEvaluate env ts

/-- Modelled from the spec: a map-backed `Env` — a missing variable
evaluates to the empty string and is not an error (§4.1). -/
def envLookup (binds : List (CStr × CStr)) (n : CStr) : CStr :=
  match binds with
  | [] => []
  | (k, v) :: rest => if k = n then v else envLookup rest n

/-- C7.  `EvalString::Parse("hi $var")` followed by `Evaluate` yields
`"hi "` under an environment binding nothing — the missing variable
evaluates to the empty string, not an error — and `"hi there"` under an
environment binding `var ↦ "there"`.  (spec-modelled: the `EvalString`
implementation is not under src/, only its test; §4.1 and §8 scenario 4
define the behaviour formalised here.) -/
theorem evalstring_one_variable :
    (evalParse "hi $var".toList).map
        (evalEvaluate (envLookup [])) = some "hi ".toList ∧
    (evalParse "hi $var".toList).map
        (evalEvaluate (envLookup [("var".toList, "there".toList)]))
      = some "hi there".toList := by decide

/-- Modelled from the spec: a `Rule` (§3) reduced to the fields the
scenario uses. -/
structure SRule where
  name : CStr
  command : CStr
deriving DecidableEq, Repr

/-- Modelled from the spec: a `Node` (§3) — path, producing edge,
observed mtime, dirty flag. -/
structure SNode where
  path : CStr
  inEdge : Option Nat
  mtime : Option Int
  dirty : Bool
deriving DecidableEq, Repr

/-- Modelled from the spec: an `Edge` (§3, §9) — rule reference and
node-index lists, arena-addressed. -/
structure SEdge where
  ruleIdx : Nat
  inputs : List Nat
  outputs : List Nat
deriving DecidableEq, Repr

/-- Modelled from the spec: the `State` graph store (§4.2) with the
`StatCache` folded into the nodes' `mtime` fields (§3). -/
structure SState where
  rules : List SRule
  nodes : List SNode
  edges : List SEdge
deriving DecidableEq, Repr

/-- Modelled from the spec: `State::AddRule` (§4.2). -/
def addRule (st : SState) (name cmd : CStr) : SState :=
  { st with rules := st.rules ++ [⟨name, cmd⟩] }

/-- Modelled from the spec: `State::AddEdge` (§4.2); the new edge's index
is `st.edges.length`. -/
def addEdge (st : SState) (ruleIdx : Nat) : SState :=
  { st with edges := st.edges ++ [⟨ruleIdx, [], []⟩] }

/-- Modelled from the spec: `State::GetNode` (§4.2) — look up or create a
node for the path, returning its index. -/
def getNodeIdx (st : SState) (p : CStr) : SState × Nat :=
  match st.nodes.findIdx? (fun n => n.path == p) with
  | some i => (st, i)
  | none =>
    ({ st with nodes := st.nodes ++ [⟨p, none, none, false⟩] },
      st.nodes.length)

/-- Modelled from the spec: `State::AddInOut(edge, IN, path)` (§4.2). -/
def addIn (st : SState) (eidx : Nat) (p : CStr) : SState :=
  let s := getNodeIdx st p
  let e := s.1.edges.getD eidx ⟨0, [], []⟩
  { s.1 with edges := s.1.edges.set eidx { e with inputs := e.inputs ++ [s.2] } }

/-- Modelled from the spec: `State::AddInOut(edge, OUT, path)` (§4.2) —
appends the node to the edge's outputs and sets the node's in-edge. -/
def addOut (st : SState) (eidx : Nat) (p : CStr) : SState :=
  let s := getNodeIdx st p
  let e := s.1.edges.getD eidx ⟨0, [], []⟩
  let n := s.1.nodes.getD s.2 ⟨p, none, none, false⟩
  let st2 :=
    { s.1 with edges := s.1.edges.set eidx { e with outputs := e.outputs ++ [s.2] } }
  { st2 with nodes := st2.nodes.set s.2 { n with inEdge := some eidx } }

/-- The path of the node at index `i`. -/
def nodePath (st : SState) (i : Nat) : CStr :=
  (st.nodes.getD i ⟨[], none, none, false⟩).path

/-- Space-joined list of strings (the expansion of the `in`/`out`
special variables). -/
def joinSpace : List CStr → CStr
  | [] => []
  | [x] => x
  | x :: xs => x ++ ' ' :: joinSpace xs

/-- Modelled from the spec: the `EdgeEnv` (§9) exposing the special
`in` and `out` tokens as the space-joined input and output paths; any
other variable is unbound. -/
def edgeEnv (st : SState) (eidx : Nat) (name : CStr) : CStr :=
  let e := st.edges.getD eidx ⟨0, [], []⟩
  if name = "in".toList then joinSpace (e.inputs.map (nodePath st))
  else if name = "out".toList then joinSpace (e.outputs.map (nodePath st))
  else []

/-- Modelled from the spec: `Edge::EvaluateCommand` — the rule's command
template evaluated under the edge's environment (§4.1, §8 scenario 1). -/
def evaluateCommand (st : SState) (eidx : Nat) : CStr :=
  let e := st.edges.getD eidx ⟨0, [], []⟩
  let r := st.rules.getD e.ruleIdx ⟨[], []⟩
  ((evalParse r.command).map (evalEvaluate (edgeEnv st eidx))).getD []

/-- The outputs of every edge that consumes the given node. -/
def consumerOutputs (st : SState) (nIdx : Nat) : List Nat :=
  ((st.edges.filter (fun e => e.inputs.contains nIdx)).map
    (fun e => e.outputs)).flatten

/-- Modelled from the spec: dirtiness propagation out of an explicitly
touched file (§3 `StatCache`: values may be touched explicitly; §8
scenario 1: after `Touch("in1", 1)` both `in1` and `out` are dirty).
Fuelled for structural recursion over the acyclic graph. -/
def markDirty : Nat → SState → Nat → SState
  | 0, st, _ => st
  | fuel + 1, st, nIdx =>
    let n := st.nodes.getD nIdx ⟨[], none, none, false⟩
    let st1 := { st with nodes := st.nodes.set nIdx { n with dirty := true } }
    (consumerOutputs st1 nIdx).foldl (markDirty fuel) st1

/-- Modelled from the spec: `StatCache` `Touch(path, mtime)` — record the
new mtime and mark the file and its transitive dependents dirty (§3, §8
scenario 1). -/
def touch (st : SState) (p : CStr) (t : Int) : SState :=
  let s := getNodeIdx st p
  let n := s.1.nodes.getD s.2 ⟨p, none, none, false⟩
  let st1 := { s.1 with nodes := s.1.nodes.set s.2 { n with mtime := some t } }
  markDirty (st1.nodes.length + 1) st1 s.2

/-- The dirty flag of the node at the given path (`false` for an unknown
path, matching a freshly created node). -/
def dirtyOf (st : SState) (p : CStr) : Bool :=
  match st.nodes.findIdx? (fun n => n.path == p) with
  | some i => (st.nodes.getD i ⟨[], none, none, false⟩).dirty
  | none => false

/-- Modelled from the spec: the `Plan`'s per-edge bookkeeping (§4.5) —
wanted edges, edges already handed out by `FindWork`, finished edges. -/
structure SPlan where
  wanted : List Nat
  returned : List Nat
  finished : List Nat
deriving DecidableEq, Repr

/-- An edge is dirty when any of its outputs is dirty (§4.3 rule 4 marks
all outputs together). -/
def edgeDirty (st : SState) (eidx : Nat) : Bool :=
  ((st.edges.getD eidx ⟨0, [], []⟩).outputs.map
    (fun o => (st.nodes.getD o ⟨[], none, none, false⟩).dirty)).any id

/-- Modelled from the spec: `Plan::AddTarget` (§4.5) — mark the target's
producing edge wanted when it is dirty (clean edges need no work) and
recurse into its inputs; re-adding is a no-op.  Fuelled for structural
recursion over the acyclic graph. -/
def planAddTargetAux : Nat → SState → SPlan → Nat → SPlan
  | 0, _, pl, _ => pl
  | fuel + 1, st, pl, nIdx =>
    match (st.nodes.getD nIdx ⟨[], none, none, false⟩).inEdge with
    | none => pl
    | some eidx =>
      if edgeDirty st eidx && !(pl.wanted.contains eidx) then
        let pl1 := { pl with wanted := pl.wanted ++ [eidx] }
        (st.edges.getD eidx ⟨0, [], []⟩).inputs.foldl
          (planAddTargetAux fuel st) pl1
      else pl

/-- Modelled from the spec: `Plan::AddTarget(path)` (§4.5). -/
def planAddTarget (st : SState) (pl : SPlan) (p : CStr) : SPlan :=
  match st.nodes.findIdx? (fun n => n.path == p) with
  | some i => planAddTargetAux (st.edges.length + 1) st pl i
  | none => pl

/-- Modelled from the spec: one input is ready when it is a source (no
producing edge) or its producing edge has completed or needs no work
(§4.5: the ready count tracks inputs whose producing edge has completed
or which are clean sources). -/
def inputReady (st : SState) (pl : SPlan) (i : Nat) : Bool :=
  match (st.nodes.getD i ⟨[], none, none, false⟩).inEdge with
  | none => true
  | some pe => pl.finished.contains pe || !(edgeDirty st pe)

/-- An edge is ready when every input is. -/
def edgeReady (st : SState) (pl : SPlan) (eidx : Nat) : Bool :=
  (st.edges.getD eidx ⟨0, [], []⟩).inputs.all (inputReady st pl)

/-- First wanted edge that is ready and has not been handed out yet
(FIFO among eligible edges, an edge is returned at most once, §4.5). -/
def findFirst (st : SState) (pl : SPlan) : List Nat → Option Nat
  | [] => none
  | e :: es =>
    if !(pl.returned.contains e) && edgeReady st pl e then some e
    else findFirst st pl es

/-- Modelled from the spec: `Plan::FindWork` (§4.5). -/
def planFindWork (st : SState) (pl : SPlan) : Option Nat × SPlan :=
  match findFirst st pl pl.wanted with
  | some e => (some e, { pl with returned := pl.returned ++ [e] })
  | none => (none, pl)

/-- The test's graph: rule `cat` with template `cat @in > $out`, one edge
with inputs `in1`, `in2` and output `out` (ninja_test.cc:14-18). -/
def c6State : SState :=
  addOut (addIn (addIn (addEdge (addRule ⟨[], [], []⟩ "cat".toList
    "cat @in > $out".toList) 0) 0 "in1".toList) 0 "in2".toList)
    0 "out".toList

/-- The graph after `stat_cache()->GetFile("in1")->Touch(1)`. -/
def c6Touched : SState := touch c6State "in1".toList 1

/-- The plan after `Plan::AddTarget("out")`. -/
def c6Plan : SPlan := planAddTarget c6Touched ⟨[], [], []⟩ "out".toList

/-- C6.  The `NinjaTest.Basic` scenario (ninja_test.cc:14-35): the edge's
evaluated command is `cat in1 in2 > out`; with all mtimes unset every
node is clean; after `Touch("in1", 1)`, `in1` and `out` are dirty while
`in2` stays clean; and after `AddTarget("out")` the first `FindWork`
returns the edge and the second returns none.  (spec-modelled: the
`State`/`EvalString`/`Plan` implementation is not under src/, only its
test; the behaviour is formalised from spec §§3, 4.1, 4.2, 4.5, 8.1.) -/
theorem ninja_basic_scenario :
    evaluateCommand c6State 0 = "cat in1 in2 > out".toList ∧
    dirtyOf c6State "in1".toList = false ∧
    dirtyOf c6State "in2".toList = false ∧
    dirtyOf c6State "out".toList = false ∧
    dirtyOf c6Touched "in1".toList = true ∧
    dirtyOf c6Touched "in2".toList = false ∧
    dirtyOf c6Touched "out".toList = true ∧
    (planFindWork c6Touched c6Plan).1 = some 0 ∧
    (planFindWork c6Touched (planFindWork c6Touched c6Plan).2).1 = none := by
  decide

/-! ## `memchrSSE2` (`build_log.cc:30-69`)

Memory is a total function from addresses to bytes; `str` is the address
`a`.  The SIMD primitives are modelled compositely:
`_mm_cmpeq_epi8`/`_mm_movemask_epi8` produce the set of lanes whose byte
equals the needle, `hit_mask &= 0xFFFFFFFF << n_unaligned` restricts it
to lanes `≥ n_unaligned` (movemask sets only bits 0-15, all kept by the
upper mask bits), and `CountTrailingZeros_32` selects the least such
lane; together: the least lane index in `[lo, 16)` whose byte matches.
The `int c` parameter is truncated to a byte both when stored as the
sentinel and inside `_mm_set1_epi8`, modelled by `Fin.ofNat`.  The
16-byte loads may touch addresses before `str` and past the sentinel
within an aligned block; memory being total, those reads are defined
here, as the same-page reads are on the real machine. -/

/-- A byte. -/
abbrev Byte := Fin 256

/-- Byte-addressed memory. -/
abbrev Mem := Nat → Byte

/-- A single byte store. -/
def writeByte (M : Mem) (p : Nat) (b : Byte) : Mem :=
  fun x => if x = p then b else M x

/-- The filtered-movemask-and-ctz of one 16-byte block at `base`:
the least lane `i` with `lo ≤ i < 16` and block byte `i` equal to the
needle (`k` counts the lanes still to inspect). -/
def blockHitAux (M : Mem) (needle : Byte) (base : Nat) :
    Nat → Nat → Option Nat
  | 0, _ => none
  | k + 1, i =>
    if M (base + i) = needle then some i
    else blockHitAux M needle base k (i + 1)

/-- Least matching lane of the block at `base` among lanes `[lo, 16)`. -/
def blockHit (M : Mem) (needle : Byte) (base lo : Nat) : Option Nat :=
  blockHitAux M needle base (16 - lo) lo

/-- The aligned scan loop (`build_log.cc:58-68`), fuelled: each
iteration inspects the block at `p` and advances by 16.  `send` is
`start + n`; a hit `r` returns `some r` when `r < start + n` and `NULL`
otherwise.  `none` at the outer level is fuel exhaustion, which the
sentinel makes unreachable (proved below). -/
def memchrLoop (M : Mem) (needle : Byte) (send : Nat) :
    Nat → Nat → Option (Option Nat)
  | 0, _ => none
  | fuel + 1, p =>
    match blockHit M needle p 0 with
    | some i => some (if p + i < send then some (p + i) else none)
    | none => memchrLoop M needle send fuel (p + 16)

/-- `memchrSSE2(str, c, n)` (`build_log.cc:34-69`) on memory `M0` with
`str` at address `a`: write the sentinel `c` at `str[n]`, scan the
(possibly unaligned) first block with lanes below `a % 16` masked off,
then aligned blocks of 16; on every return path the sentinel byte is
restored first.  The result pairs the returned pointer (`none` =
`NULL`) with the memory after the call.

In the unaligned-head branch the block is loaded at the aligned-down
base `a - a % 16`, so the matching lane `i` names the byte at
`(a - a % 16) + i`; the source nevertheless computes
`char* r = str + CountTrailingZeros_32(hit_mask)` (`build_log.cc:52`),
i.e. `a + i`, and guards that same `r` against `start + n` — the
returned pointer sits `a % 16` bytes past the match.  The aligned loop's
`r = str + ctz` is relative to the block it loaded and is exact. -/
def memchrSSE2 (M0 : Mem) (a c n : Nat) : Option (Option Nat × Mem) :=
  let old := M0 (a + n)
  let needle : Byte := Fin.ofNat c
  let M := writeByte M0 (a + n) needle
  let restored := writeByte M (a + n) old
  let u := a % 16
  if u > 0 then
    match blockHit M needle (a - u) u with
    | some i =>
      some ((if a + i < a + n then some (a + i) else none), restored)
    | none =>
      (memchrLoop M needle (a + n) (n + 2) (a + (16 - u))).map
        (fun res => (res, restored))
  else
    (memchrLoop M needle (a + n) (n + 2) a).map (fun res => (res, restored))

/-- The contract, from the spec's words: standard `memchr` — the address
of the first occurrence of byte `c` in `str[0..n)`, or `NULL` (`none`)
when `c` does not occur there.  (The spec treats the SIMD scanner as an
optimisation of exactly this: "platform `memchr` variant … any correct
line splitter suffices".) -/
def memchrSpecAux (M : Mem) (needle : Byte) : Nat → Nat → Option Nat
  | _, 0 => none
  | p, k + 1 => if M p = needle then some p else memchrSpecAux M needle (p + 1) k

/-- Standard `memchr` over `[a, a + n)`. -/
def memchrSpec (M : Mem) (a c n : Nat) : Option Nat :=
  memchrSpecAux M (Fin.ofNat c) a n

theorem writeByte_self (M : Mem) (p : Nat) (b : Byte) :
    writeByte M p b p = b := by
  simp [writeByte]

theorem writeByte_other (M : Mem) {x p : Nat} (h : x ≠ p) (b : Byte) :
    writeByte M p b x = M x := by
  simp [writeByte, h]

theorem writeByte_restore (M0 : Mem) (p : Nat) (b : Byte) :
    writeByte (writeByte M0 p b) p (M0 p) = M0 := by
  funext x
  by_cases hx : x = p
  · subst hx; simp [writeByte]
  · simp [writeByte, hx]

theorem blockHitAux_some_spec {M : Mem} {needle : Byte} {base : Nat} :
    ∀ k i j, blockHitAux M needle base k i = some j →
      i ≤ j ∧ j < i + k ∧ M (base + j) = needle ∧
        ∀ t, i ≤ t → t < j → M (base + t) ≠ needle := by
  intro k
  induction k with
  | zero => intro i j h; simp [blockHitAux] at h
  | succ k ih =>
    intro i j h
    unfold blockHitAux at h
    by_cases hm : M (base + i) = needle
    · rw [if_pos hm] at h
      injection h with h
      subst h
      exact ⟨Nat.le_refl i, by omega, hm,
        fun t ht1 ht2 => absurd ht1 (by omega)⟩
    · rw [if_neg hm] at h
      obtain ⟨h1, h2, h3, h4⟩ := ih (i + 1) j h
      refine ⟨by omega, by omega, h3, ?_⟩
      intro t ht1 ht2
      by_cases hti : t = i
      · subst hti; exact hm
      · exact h4 t (by omega) ht2

theorem blockHitAux_none_spec {M : Mem} {needle : Byte} {base : Nat} :
    ∀ k i, blockHitAux M needle base k i = none →
      ∀ t, i ≤ t → t < i + k → M (base + t) ≠ needle := by
  intro k
  induction k with
  | zero => intro i h t ht1 ht2; omega
  | succ k ih =>
    intro i h t ht1 ht2
    unfold blockHitAux at h
    by_cases hm : M (base + i) = needle
    · rw [if_pos hm] at h; cases h
    · rw [if_neg hm] at h
      by_cases hti : t = i
      · subst hti; exact hm
      · exact ih (i + 1) h t (by omega) (by omega)

theorem blockHit_some_spec {M : Mem} {needle : Byte} {base lo j : Nat}
    (hlo : lo ≤ 16) (h : blockHit M needle base lo = some j) :
    lo ≤ j ∧ j < 16 ∧ M (base + j) = needle ∧
      ∀ t, lo ≤ t → t < j → M (base + t) ≠ needle := by
  obtain ⟨h1, h2, h3, h4⟩ := blockHitAux_some_spec (16 - lo) lo j h
  exact ⟨h1, by omega, h3, h4⟩

theorem blockHit_none_spec {M : Mem} {needle : Byte} {base lo : Nat}
    (hlo : lo ≤ 16) (h : blockHit M needle base lo = none) :
    ∀ t, lo ≤ t → t < 16 → M (base + t) ≠ needle := by
  intro t ht1 ht2
  exact blockHitAux_none_spec (16 - lo) lo h t ht1 (by omega)

/-- The aligned loop finds the least needle position at or after `p`;
the sentinel at `s` bounds it and guarantees termination within the
fuel. -/
theorem memchrLoop_correct {M : Mem} {needle : Byte} {s : Nat}
    (hs : M s = needle) :
    ∀ fuel p, p ≤ s → s < p + 16 * fuel →
    ∃ q, p ≤ q ∧ q ≤ s ∧ M q = needle ∧
      (∀ t, p ≤ t → t < q → M t ≠ needle) ∧
      memchrLoop M needle s fuel p =
        some (if q < s then some q else none) := by
  intro fuel
  induction fuel with
  | zero => intro p h1 h2; omega
  | succ fuel ih =>
    intro p hp hlt
    cases hb : blockHit M needle p 0 with
    | some i =>
      obtain ⟨_, hi16, hhit, hmin⟩ := blockHit_some_spec (by omega) hb
      refine ⟨p + i, by omega, ?_, hhit, ?_, ?_⟩
      · by_contra hc
        push_neg at hc
        have hcon := hmin (s - p) (by omega) (by omega)
        rw [show p + (s - p) = s by omega] at hcon
        exact hcon hs
      · intro t ht1 ht2
        have hcon := hmin (t - p) (by omega) (by omega)
        rw [show p + (t - p) = t by omega] at hcon
        exact hcon
      · show memchrLoop M needle s (fuel + 1) p = _
        unfold memchrLoop
        rw [hb]
    | none =>
      have hnone := blockHit_none_spec (by omega) hb
      have hs16 : p + 16 ≤ s := by
        by_contra hc
        push_neg at hc
        have hcon := hnone (s - p) (by omega) (by omega)
        rw [show p + (s - p) = s by omega] at hcon
        exact hcon hs
      obtain ⟨q, hq1, hq2, hq3, hq4, hq5⟩ := ih (p + 16) hs16 (by omega)
      refine ⟨q, by omega, hq2, hq3, ?_, ?_⟩
      · intro t ht1 ht2
        by_cases htp : t < p + 16
        · have hcon := hnone (t - p) (by omega) (by omega)
          rw [show p + (t - p) = t by omega] at hcon
          exact hcon
        · exact hq4 t (by omega) ht2
      · show memchrLoop M needle s (fuel + 1) p = _
        unfold memchrLoop
        rw [hb]
        exact hq5

theorem memchrSpecAux_some {M : Mem} {needle : Byte} :
    ∀ k p q, p ≤ q → q < p + k → M q = needle →
      (∀ t, p ≤ t → t < q → M t ≠ needle) →
      memchrSpecAux M needle p k = some q := by
  intro k
  induction k with
  | zero => intro p q h1 h2; omega
  | succ k ih =>
    intro p q h1 h2 hq hmin
    unfold memchrSpecAux
    by_cases hp : M p = needle
    · have hnlt : ¬ p < q := fun hlt => hmin p (Nat.le_refl p) hlt hp
      have hqp : q = p := by omega
      rw [if_pos hp, hqp]
    · rw [if_neg hp]
      have hpq : p ≠ q := fun he => hp (he ▸ hq)
      exact ih (p + 1) q (by omega) (by omega) hq
        (fun t ht1 ht2 => hmin t (by omega) ht2)

theorem memchrSpecAux_none {M : Mem} {needle : Byte} :
    ∀ k p, (∀ t, p ≤ t → t < p + k → M t ≠ needle) →
      memchrSpecAux M needle p k = none := by
  intro k
  induction k with
  | zero => intro p _; rfl
  | succ k ih =>
    intro p h
    unfold memchrSpecAux
    rw [if_neg (h p (Nat.le_refl p) (by omega))]
    exact ih (p + 1) (fun t ht1 ht2 => h t (by omega) (by omega))

/-- The least needle position of the sentinelled memory determines the
`memchr` answer on the original memory. -/
theorem spec_of_least_hit {M0 : Mem} {a c n q : Nat} (hq1 : a ≤ q)
    (hq2 : q ≤ a + n)
    (hhit : writeByte M0 (a + n) (Fin.ofNat c) q = (Fin.ofNat c : Byte))
    (hmin : ∀ t, a ≤ t → t < q →
      writeByte M0 (a + n) (Fin.ofNat c) t ≠ (Fin.ofNat c : Byte)) :
    (if q < a + n then some q else none) = memchrSpec M0 a c n := by
  unfold memchrSpec
  by_cases hqs : q < a + n
  · rw [if_pos hqs]
    symm
    refine memchrSpecAux_some n a q hq1 (by omega) ?_ ?_
    · rwa [writeByte_other M0 (show q ≠ a + n by omega)] at hhit
    · intro t ht1 ht2
      have hcon := hmin t ht1 ht2
      rwa [writeByte_other M0 (show t ≠ a + n by omega)] at hcon
  · rw [if_neg hqs]
    symm
    refine memchrSpecAux_none n a ?_
    intro t ht1 ht2
    have hcon := hmin t ht1 (by omega)
    rwa [writeByte_other M0 (show t ≠ a + n by omega)] at hcon

/-- For a 16-byte-aligned `str` the scanner never takes the
unaligned-head branch, and then it does agree with standard `memchr` and
leaves memory, sentinel included, restored.  This isolates the
divergence below to the unaligned-head lane arithmetic. -/
theorem memchrSSE2_aligned_eq_memchr (M0 : Mem) (a c n : Nat)
    (ha : a % 16 = 0) :
    memchrSSE2 M0 a c n = some (memchrSpec M0 a c n, M0) := by
  have hrest := writeByte_restore M0 (a + n) (Fin.ofNat c)
  have hsent : writeByte M0 (a + n) (Fin.ofNat c) (a + n) =
      (Fin.ofNat c : Byte) := writeByte_self M0 (a + n) _
  simp only [memchrSSE2]
  rw [hrest]
  rw [if_neg (by omega)]
  obtain ⟨q, hq1, hq2, hq3, hq4, hq5⟩ :=
    memchrLoop_correct hsent (n + 2) a (by omega) (by omega)
  rw [hq5]
  rw [show (Option.map (fun res => (res, M0))
      (some (if q < a + n then some q else none))) =
      some ((if q < a + n then some q else none), M0) from rfl]
  rw [spec_of_least_hit hq1 hq2 hq3 hq4]

/-- The failing input's memory: a single occurrence of byte `10` at
address 2, every other byte `0`. -/
def c10Mem : Mem := fun x => if x = 2 then (10 : Byte) else (0 : Byte)

/-- C10 is right about the intent and wrong about the code, which has a
bug in its unaligned-head branch: `memchrSSE2` does not return what
standard `memchr` would.  With `str` at address 1 (`n_unaligned = 1`)
and the only occurrence of `c = 10` at `str[1]` (address 2):

* for `n = 5`, `memchr` yields address 2, but the scanner returns
  address 3 — the block is loaded at the aligned base 0 and the match is
  in lane 2, yet `build_log.cc:52` adds the lane to `str`, not to the
  base, overshooting by `n_unaligned`;
* for `n = 2` the same occurrence is still inside `str[0..n)`, but the
  overshot pointer fails the `r < start + n` guard and the scanner
  returns `NULL` where `memchr` yields address 2.

Termination holds here (the result is `some`, not the fuel-exhaustion
`none`), and the returned memory is the sentinel-restored one
(`writeByte_restore`); it is the returned pointer that breaks the
`memchr` contract. -/
theorem memchrSSE2_unaligned_head_bug :
    (memchrSSE2 c10Mem 1 10 5).map (fun r => r.1) = some (some 3) ∧
    memchrSpec c10Mem 1 10 5 = some 2 ∧
    (memchrSSE2 c10Mem 1 10 2).map (fun r => r.1) = some none ∧
    memchrSpec c10Mem 1 10 2 = some 2 := by decide

end Ninja

